import Mathlib

/-!
Verification of the dependency-resolution engine of `teroshdl_gen.py`.

The Python source is shallowly embedded as follows.

* Paths are absolute, case-normalized strings (components separated by `'/'`).
  Under this convention `os.path.abspath`, `os.path.normcase` and
  `os.path.relpath`-then-`abspath` round trips are the identity, and
  `os.path.basename` / `os.path.dirname` / `os.path.commonpath` /
  `os.path.normpath` are modelled componentwise below.
* Regex scanning is out of scope of the claims (the spec treats the textual
  patterns as a pluggable grammar); a file's content is therefore embedded as
  the lists of matches the regexes produce: `vhdlRefs` holds the
  `(group 1, group 2)` pairs of `VHDL_USE_REGEX` followed by
  `VHDL_INST_REGEX` (a `group 1 = None` library hint is `none`), `vIncludes`
  holds the `group 1` strings of `VERILOG_INCLUDE_REGEX`, and `vInsts` holds
  the `group 1` strings of `VERILOG_INST_REGEX`.
* Python dicts are embedded as insertion-ordered association lists, Python
  sets accumulated by `.add` as insertion-ordered duplicate-free lists.
  CPython materializes `list(setOfStrings)` in an unspecified, hash-seed
  dependent order; the `setOrder` parameter of `resolve_dependency_tree`
  models that materialization (it is `id` for one possible seed).
* Fallible code returns `Option`: `none` models an uncaught Python exception
  (in particular the `AttributeError` raised by `lib_name.lower()` when
  `lib_name` is `None`).
* Loops whose iteration count is not structural take explicit fuel; theorems
  prove that sufficient fuel exists.
-/

namespace Teros

/-! ## String and path helpers (Python `str` / `os.path` fragment) -/

/-- ASCII lower-casing of one character, the fragment of Python `str.lower`
relevant to identifiers and path extensions. -/
def charLower (c : Char) : Char :=
  if 'A' ≤ c ∧ c ≤ 'Z' then Char.ofNat (c.toNat + 32) else c

/-- Python `s.lower()` (ASCII fragment). -/
def strToLower (s : String) : String := ⟨s.data.map charLower⟩

/-- Python `s.startswith(p)`. -/
def strStartsWith (s p : String) : Bool := p.data.isPrefixOf s.data

/-- Python `s.endswith(p)`. -/
def strEndsWith (s p : String) : Bool := p.data.isSuffixOf s.data

/-- Split a character list at `'/'` separators (Python `s.split('/')`). -/
def splitChars : List Char → List (List Char)
  | [] => [[]]
  | c :: cs =>
    let r := splitChars cs
    if c = '/' then [] :: r
    else
      match r with
      | [] => [[c]]
      | h :: t => (c :: h) :: t

/-- Python `p.split('/')`. -/
def splitOnSlash (s : String) : List String := (splitChars s.data).map fun l => ⟨l⟩

/-- Join path components with `'/'` separators. -/
def joinPath : List String → String
  | [] => ""
  | [c] => c
  | c :: cs => c ++ "/" ++ joinPath cs

/-- Python `os.path.basename(p)`: everything after the last separator. -/
def baseName (p : String) : String := (splitOnSlash p).getLastD ""

/-- Python `os.path.dirname(p)`. -/
def dirName (p : String) : String :=
  let ds := (splitOnSlash p).dropLast
  if joinPath ds = "" then (if strStartsWith p "/" then "/" else "") else joinPath ds

/-- Longest common prefix of two component lists. -/
def commonPrefixL : List String → List String → List String
  | a :: as, b :: bs => if a = b then a :: commonPrefixL as bs else []
  | _, _ => []

/-- Python `os.path.commonpath([a, b])` for absolute normalized paths:
the longest common component prefix, `"/"` when only the root is shared. -/
def commonPath (a b : String) : String :=
  let c := commonPrefixL (splitOnSlash a) (splitOnSlash b)
  if joinPath c = "" then "/" else joinPath c

/-- `len(os.path.commonpath([a, b]))` — the string length Python compares. -/
def commonPathLen (a b : String) : Nat := (commonPath a b).length

/-- Componentwise path normalization helper (drops `''` and `'.'`, resolves
`'..'` against the accumulated prefix, as `os.path.normpath` does on
absolute paths). -/
def normComponents : List String → List String → List String
  | [], acc => acc.reverse
  | c :: rest, acc =>
    if c = "" then normComponents rest acc
    else if c = "." then normComponents rest acc
    else if c = ".." then
      match acc with
      | [] => normComponents rest acc
      | _ :: as => normComponents rest as
    else normComponents rest (c :: acc)

/-- Python `os.path.join(d, p)` (two-argument form). -/
def joinP (d p : String) : String := if strStartsWith p "/" then p else d ++ "/" ++ p

/-- Python `os.path.normpath` restricted to the absolute paths of the model. -/
def normPath (p : String) : String :=
  let cs := normComponents (splitOnSlash p) []
  if strStartsWith p "/" then "/" ++ joinPath cs
  else if joinPath cs = "" then "." else joinPath cs

/-! ## Data model -/

/-- The regex matches of one source file (see the header comment). -/
structure FileContent where
  vhdlRefs : List (Option String × String)
  vIncludes : List String
  vInsts : List String
deriving DecidableEq

/-- The observable file system: readable file contents plus the paths for
which `os.path.exists` holds. -/
structure Env where
  files : List (String × FileContent)
  onDisk : List String
deriving DecidableEq

/-- Reading a file; `none` is an unreadable or missing file. -/
def Env.read (e : Env) (p : String) : Option FileContent := List.lookup p e.files

/-- `os.path.exists`. -/
def Env.existsB (e : Env) (p : String) : Bool := e.onDisk.contains p

/-- `unit_map`: `(library, unit-name)` keys (both lower-cased) to the lists of
defining files, keys in insertion order, bucket entries in discovery order. -/
abbrev UnitMap := List ((String × String) × List String)

/-- Python set emulation: `s.add(x)` on an insertion-ordered set. -/
def addToSet (x : String) (l : List String) : List String :=
  if l.contains x then l else l ++ [x]

/-! ## Library Classifier (`get_library_for_path`) -/

/-- Stable sort of `(path, lib)` pairs by decreasing path length, the model
of Python's stable `sorted(all_paths, key=lambda item: len(item[0]),
reverse=True)`: an element is placed before another exactly when the other's
path is no longer. -/
def sortByLenDesc (l : List (String × String)) : List (String × String) :=
  List.insertionSort (fun a b => b.1.length ≤ a.1.length) l

/-- The `all_paths` list of `get_library_for_path`: the rule map flattened
to `(path, lib)` pairs in insertion order. -/
def allRulePairs (lib_map : List (String × List String)) : List (String × String) :=
  lib_map.flatMap fun e => e.2.map fun p => (p, e.1)

/-- `get_library_for_path` from the source: flatten the rule map to
`(path, lib)` pairs, sort by path length descending, and return the library
of the first rule whose path is a string prefix of the file path;
`default_lib` when none matches. -/
def get_library_for_path (rel_file_path : String) (lib_map : List (String × List String))
    (default_lib : String) : String :=
  let sorted_paths := sortByLenDesc (allRulePairs lib_map)
  match sorted_paths.find? (fun pr => strStartsWith rel_file_path pr.1) with
  | some pr => pr.2
  | none => default_lib

/-! ## Candidate Resolver (`find_dependencies_in_file`) -/

/-- The body of the candidate loop of `get_best_path_by_proximity`: keep the
running `(best_path, max_common_len)` pair, replacing it only on strict
improvement of `len(os.path.commonpath([current_file_dir, candidate]))`. -/
def proxStep (current_file_dir : String) (acc : Option String × Int) (candidate : String) :
    Option String × Int :=
  let cl : Int := (commonPathLen current_file_dir candidate : Nat)
  if acc.2 < cl then (some candidate, cl) else acc

/-- `get_best_path_by_proximity` from the source (the closure captures
`current_file_dir`): a strict-improvement scan starting from `(None, -1)`,
so the first candidate attaining the maximal
`len(os.path.commonpath([current_file_dir, candidate]))` wins. -/
def get_best_path_by_proximity (current_file_dir : String) (path_list : List String) :
    Option String :=
  if path_list.length = 1 then path_list.head?
  else
    (path_list.foldl (proxStep current_file_dir)
      ((none : Option String), (-1 : Int))).1

/-- Phase-1 implicit gather: walk `unit_map.items()` in insertion order and
collect every bucket whose unit-name component matches. -/
def implicitGather (unit_map : UnitMap) (unit_name : String) : List String :=
  (unit_map.filter fun e => e.1.2 == unit_name).flatMap fun e => e.2

/-- Phase 1 of `find_dependencies_in_file`: an explicit library hint other
than `work` is a hard directive (exact `(hint, name)` lookup, no fallback);
no hint, or a `work` hint, searches every bucket with a matching unit name
across all libraries. -/
def gatherCandidates (unit_map : UnitMap) (lib_name : Option String) (unit_name : String) :
    List String :=
  match lib_name with
  | some l =>
    if strToLower l ≠ "work" then
      match List.lookup (strToLower l, unit_name) unit_map with
      | some paths => paths
      | none => []
    else implicitGather unit_map unit_name
  | none => implicitGather unit_map unit_name

/-- One VHDL reference through the gather/resolve phases of
`find_dependencies_in_file`.  State: `(dependencies, warnings)`.  Result
`none` models the `AttributeError` raised by `lib_name.lower()` in
`if lib_name.lower() != 'ieee'` when `lib_name` is `None`. -/
def processVhdlRef (unit_map : UnitMap) (file_dir file_path : String)
    (st : List String × List (String × String)) (ref : Option String × String) :
    Option (List String × List (String × String)) :=
  let lib_name := ref.1
  let raw_unit_name := ref.2
  let unit_name := strToLower raw_unit_name
  let path_candidates := gatherCandidates unit_map lib_name unit_name
  if path_candidates ≠ [] then
    let best_match_path :=
      if 1 < path_candidates.length then get_best_path_by_proximity file_dir path_candidates
      else path_candidates.head?
    match best_match_path with
    | some b => some (addToSet b st.1, st.2)
    | none => some st
  else
    let original_dep_str :=
      match lib_name with
      | some l => l ++ "." ++ raw_unit_name
      | none => raw_unit_name
    match lib_name with
    | none => none
    | some l =>
      if strToLower l ≠ "ieee" then
        some (st.1, st.2 ++ [(baseName file_path, original_dep_str)])
      else some st

/-- One Verilog `include` match: resolved relative to the file's directory,
kept only if the resolved path exists, and recorded in the process-wide
`INCLUDE_FILES` set.  State: `(dependencies, includeFiles)`. -/
def processInclude (env : Env) (file_dir : String)
    (st : List String × List String) (include_path : String) : List String × List String :=
  let abs_include_path := normPath (joinP file_dir include_path)
  if env.existsB abs_include_path then
    (addToSet abs_include_path st.1, addToSet abs_include_path st.2)
  else st

/-- One Verilog instantiation-like match: the leading identifier is
lower-cased and looked up under the default library only.  Note that the
source never consults `VERILOG_KEYWORDS` here (or anywhere). -/
def processInst (unit_map : UnitMap) (default_lib file_dir : String)
    (deps : List String) (inst_name : String) : List String :=
  let module_name := strToLower inst_name
  let key := (strToLower default_lib, module_name)
  match List.lookup key unit_map with
  | some paths =>
    match get_best_path_by_proximity file_dir paths with
    | some b => addToSet b deps
    | none => deps
  | none => deps

/-- The observable result of `find_dependencies_in_file`: the dependency set
in insertion order, the unresolved-reference warnings as
`(basename of referencing file, dependency string)` pairs, and the paths
added to the global `INCLUDE_FILES` set. -/
structure DepResult where
  deps : List String
  warnings : List (String × String)
  includes : List String
deriving DecidableEq

/-- `find_dependencies_in_file` from the source; `none` models an uncaught
exception escaping the function. -/
def find_dependencies_in_file (env : Env) (unit_map : UnitMap) (default_lib : String)
    (file_path : String) : Option DepResult :=
  let current_file_dir := dirName file_path
  match env.read file_path with
  | none => some ⟨[], [], []⟩
  | some content =>
    let lp := strToLower file_path
    if strEndsWith lp ".vhd" || strEndsWith lp ".vhdl" then
      match content.vhdlRefs.foldlM (processVhdlRef unit_map current_file_dir file_path)
          ([], []) with
      | none => none
      | some (deps, warns) => some ⟨deps, warns, []⟩
    else if strEndsWith lp ".v" || strEndsWith lp ".sv" then
      let st := content.vIncludes.foldl (processInclude env current_file_dir) ([], [])
      let deps := content.vInsts.foldl (processInst unit_map default_lib current_file_dir) st.1
      some ⟨deps, [], st.2⟩
    else some ⟨[], [], []⟩

/-! ## File-Order Resolver (`resolve_dependency_tree`) -/

/-- One stack frame: a file path and its lazily installed dependency cursor
(`none` = not yet expanded, `some ds` = the items the iterator still holds). -/
abbrev Frame := String × Option (List String)

/-- The visitation state of `resolve_dependency_tree`: the explicit frame
stack (head = top of stack), the visited set, the output list, and the
number of circular-dependency messages printed. -/
structure RS where
  stack : List Frame
  visited : List String
  out : List String
  warn : Nat
deriving DecidableEq

/-- The paths currently on the stack. -/
def RS.stackPaths (s : RS) : List String := s.stack.map Prod.fst

/-- Result of one pass of the `while stack:` loop. -/
inductive StepRes where
  | cont (s : RS)
  | done (out : List String) (warn : Nat)
  | crash
deriving DecidableEq

/-- The `try: next_dep = next(dep for dep in dep_iterator if dep not in
visited)` part of one `while` pass, acting on the top frame `(p, some ds)`
above `rest` (the `stack` field of `s` is ignored and rebuilt): items
already visited are consumed and skipped; on `StopIteration` the frame is
popped and its path appended to the output; when the next target is already
on the stack (the full stack, top frame included) a circular-dependency
message is printed and the edge dropped; otherwise the target is pushed
unexpanded and marked visited. -/
def advanceAux (p : String) (rest : List Frame) (s : RS) : List String → RS
  | [] =>
    { stack := rest, visited := s.visited, out := s.out ++ [p], warn := s.warn }
  | d :: ds' =>
    if (p :: rest.map Prod.fst).contains d then
      { stack := (p, some ds') :: rest, visited := s.visited, out := s.out,
        warn := s.warn + 1 }
    else
      { stack := (d, none) :: (p, some ds') :: rest, visited := d :: s.visited,
        out := s.out, warn := s.warn }

/-- See the doc comment of `advanceAux` above: `advance` consumes the
already-visited iterator items and then acts on the first fresh target. -/
def advance (p : String) (ds : List String) (rest : List Frame) (s : RS) : RS :=
  advanceAux p rest s (ds.dropWhile (fun d => s.visited.contains d))

/-- One pass of the `while stack:` loop of `resolve_dependency_tree`,
parameterized by `os.path.exists` and by the per-file edge function (the
call to `find_dependencies_in_file`; `none` = uncaught exception).  An
unexpanded frame whose path does not exist is popped without being emitted;
otherwise its cursor is installed and, in the same pass, the iterator step
runs. -/
def step (ex : String → Bool) (depsOf : String → Option (List String)) (s : RS) : StepRes :=
  match s.stack with
  | [] => .done s.out s.warn
  | (p, cur) :: rest =>
    match cur with
    | none =>
      if ex p then
        match depsOf p with
        | none => .crash
        | some ds => .cont (advance p ds rest s)
      else .cont { s with stack := rest }
    | some ds => .cont (advance p ds rest s)

/-- The observable outcome of one resolution run. -/
inductive RunOut where
  | ok (out : List String) (warn : Nat)
  | crashed
deriving DecidableEq

/-- Fueled iteration of `step`. -/
def run (ex : String → Bool) (depsOf : String → Option (List String)) :
    Nat → RS → Option RunOut
  | 0, _ => none
  | n + 1, s =>
    match step ex depsOf s with
    | .done out warn => some (.ok out warn)
    | .crash => some .crashed
    | .cont s' => run ex depsOf n s'

/-- The initial state: the top-level file is pushed and marked visited. -/
def initRS (top : String) : RS := ⟨[(top, none)], [top], [], 0⟩

/-- `resolve_dependency_tree` from the source, with
`find_dependencies_in_file` as its edge function.  `setOrder` models the
unspecified (hash-seed dependent) order in which CPython materializes
`list(dependencies)`; under the model's absolute-path convention the
path-cache normalization performed by the source is the identity. -/
def resolve_dependency_tree (setOrder : List String → List String) (env : Env)
    (unit_map : UnitMap) (default_lib : String) (top_level_file : String) (fuel : Nat) :
    Option RunOut :=
  run env.existsB
    (fun p => (find_dependencies_in_file env unit_map default_lib p).map
      fun r => setOrder r.deps)
    fuel (initRS top_level_file)

/-! ## Concrete fixtures -/

/-- C1 fixture: one readable VHDL file whose single reference carries no
library hint and is defined nowhere (`unit_map` is empty). -/
def envNoHintUnresolved : Env :=
  ⟨[("/p/t.vhd", ⟨[(none, "missing")], [], []⟩)], ["/p/t.vhd"]⟩

/-- The same file but with an explicit `mylib` hint on the reference. -/
def envHintUnresolved : Env :=
  ⟨[("/p/t.vhd", ⟨[(some "mylib", "missing")], [], []⟩)], ["/p/t.vhd"]⟩

/-- The same file but with an `IEEE` hint on the reference. -/
def envIeeeUnresolved : Env :=
  ⟨[("/p/t.vhd", ⟨[(some "IEEE", "numeric_std")], [], []⟩)], ["/p/t.vhd"]⟩

/-- C2 fixture: the top level references two independent units `ua`, `ub`
defined in `a.vhd` and `b.vhd`. -/
def envTwoDeps : Env :=
  ⟨[("/p/t.vhd", ⟨[(none, "ua"), (none, "ub")], [], []⟩),
    ("/p/a.vhd", ⟨[], [], []⟩), ("/p/b.vhd", ⟨[], [], []⟩)],
   ["/p/t.vhd", "/p/a.vhd", "/p/b.vhd"]⟩

/-- Unit index for the C2 fixture. -/
def umTwoDeps : UnitMap := [(("", "ua"), ["/p/a.vhd"]), (("", "ub"), ["/p/b.vhd"])]

/-- C3 fixture: `x.vhd` references unit `uy` defined in `y.vhd`, which
references unit `ux` defined in `x.vhd` — a two-file dependency cycle. -/
def envCycle : Env :=
  ⟨[("/p/x.vhd", ⟨[(none, "uy")], [], []⟩), ("/p/y.vhd", ⟨[(none, "ux")], [], []⟩)],
   ["/p/x.vhd", "/p/y.vhd"]⟩

/-- Unit index for the cycle fixture. -/
def umCycle : UnitMap := [(("", "ux"), ["/p/x.vhd"]), (("", "uy"), ["/p/y.vhd"])]

/-- C4 fixture: a SystemVerilog file whose only instantiation-like match has
the reserved word `reg` as its leading identifier, while the index maps the
unit name `reg` (under the default library) to `/p/regmod.v`. -/
def envKeyword : Env :=
  ⟨[("/p/top.sv", ⟨[], [], ["reg"]⟩), ("/p/regmod.v", ⟨[], [], []⟩)],
   ["/p/top.sv", "/p/regmod.v"]⟩

/-- Unit index for the keyword fixture. -/
def umKeyword : UnitMap := [(("", "reg"), ["/p/regmod.v"])]

/-! ## Generic list lemmas -/

/-- `find?` returning `some a` splits the list into a failing prefix,
`a` itself, and a remainder. -/
theorem find?_eq_some_split {α : Type} (p : α → Bool) (l : List α) (a : α)
    (h : l.find? p = some a) :
    p a = true ∧ ∃ l₁ l₂, l = l₁ ++ a :: l₂ ∧ ∀ x ∈ l₁, p x = false := by
  induction l with
  | nil => simp [List.find?] at h
  | cons y ys ih =>
    by_cases hy : p y = true
    · rw [List.find?_cons_of_pos _ hy] at h
      obtain rfl : y = a := by injection h
      exact ⟨hy, [], ys, rfl, by simp⟩
    · rw [List.find?_cons_of_neg _ (by simpa using hy)] at h
      obtain ⟨hpa, l₁, l₂, rfl, hfail⟩ := ih h
      refine ⟨hpa, y :: l₁, l₂, rfl, ?_⟩
      intro x hx
      rcases List.mem_cons.mp hx with rfl | hx
      · simpa using hy
      · exact hfail x hx

/-! ## Claim C1 -/

/-- C1: the claim states that a VHDL reference with zero candidates always
recovers non-fatally — no edge, a warning naming the referencing file and
symbol (suppressed for `ieee`), processing continues, in particular with no
library hint at all.  The code violates the no-hint case: at the fixture
with a single unhinted unresolved reference, `lib_name.lower()` is executed
with `lib_name = None` and raises `AttributeError` (modelled as `none`),
aborting instead of warning.  With an explicit non-`ieee` hint the code does
recover with the claimed warning, and an `IEEE` hint is suppressed. -/
theorem c1_no_hint_unresolved_crashes :
    find_dependencies_in_file envNoHintUnresolved [] "" "/p/t.vhd" = none
    ∧ find_dependencies_in_file envHintUnresolved [] "" "/p/t.vhd"
        = some ⟨[], [("t.vhd", "mylib.missing")], []⟩
    ∧ find_dependencies_in_file envIeeeUnresolved [] "" "/p/t.vhd"
        = some ⟨[], [], []⟩ := by
  refine ⟨by decide, by decide, by decide⟩

/-! ## Claim C2 -/

/-- C2: the claim states that two runs on identical inputs produce
byte-identical output ordering.  The source materializes each file's
dependency set with `list(dependencies)`, whose order CPython leaves
hash-seed dependent; on the fixture with two independent dependencies, two
legitimate materialization orders of the same set (`id` and `List.reverse`,
a permutation) produce different output orderings on identical inputs. -/
theorem c2_output_order_depends_on_set_order :
    resolve_dependency_tree id envTwoDeps umTwoDeps "" "/p/t.vhd" 20
      = some (.ok ["/p/a.vhd", "/p/b.vhd", "/p/t.vhd"] 0)
    ∧ resolve_dependency_tree List.reverse envTwoDeps umTwoDeps "" "/p/t.vhd" 20
      = some (.ok ["/p/b.vhd", "/p/a.vhd", "/p/t.vhd"] 0)
    ∧ List.Perm (List.reverse ["/p/a.vhd", "/p/b.vhd"]) ["/p/a.vhd", "/p/b.vhd"]
    ∧ (["/p/a.vhd", "/p/b.vhd", "/p/t.vhd"] : List String)
        ≠ ["/p/b.vhd", "/p/a.vhd", "/p/t.vhd"] := by
  refine ⟨by decide, by decide, by decide, by decide⟩

/-! ## Claim C3 -/

/-- C3: the claim states that on a cyclic input resolution terminates, emits
every reachable file exactly once, and surfaces a circular-dependency
warning at the stack check.  On the `X→Y→X` fixture the run does terminate
and emits both files exactly once, but the warning count is `0`: every path
on the stack is already in `visited`, so the `dep not in visited` generator
filter consumes the back edge before the `any(path == next_dep ...)` stack
check can ever fire — the cycle is dropped silently. -/
theorem c3_cycle_terminates_but_never_warns :
    resolve_dependency_tree id envCycle umCycle "" "/p/x.vhd" 20
      = some (.ok ["/p/y.vhd", "/p/x.vhd"] 0) := by decide

/-! ## Claim C4 -/

/-- C4: the claim states that an instantiation-like match whose leading
identifier is a reserved word (`input`, `reg`, `wire`, ...) is filtered out
and never yields a dependency.  `VERILOG_KEYWORDS` is defined in the source
but never consulted: on the fixture whose only match has leading identifier
`reg`, with the unit name `reg` present in the index under the default
library, the resolver does add the dependency edge. -/
theorem c4_keyword_match_yields_dependency :
    find_dependencies_in_file envKeyword umKeyword "" "/p/top.sv"
      = some ⟨["/p/regmod.v"], [], []⟩ := by decide

/-! ## Claim C8 -/

/-- C8: for every file path and rule set, library classification returns the
library of a rule whose prefix is a string-prefix of the normalized path and
is longest among all matching rules (so a rule for `src/special` outranks
one for `src` when both match), and returns the default library when no
rule's prefix matches. -/
theorem c8_longest_matching_rule_wins (rel : String) (lib_map : List (String × List String))
    (default_lib : String) :
    ((∀ pr ∈ allRulePairs lib_map, strStartsWith rel pr.1 = false) →
      get_library_for_path rel lib_map default_lib = default_lib)
    ∧ ∀ pr ∈ allRulePairs lib_map, strStartsWith rel pr.1 = true →
        ∃ qr, qr ∈ allRulePairs lib_map ∧ strStartsWith rel qr.1 = true ∧
          get_library_for_path rel lib_map default_lib = qr.2 ∧
          ∀ rr ∈ allRulePairs lib_map, strStartsWith rel rr.1 = true →
            rr.1.length ≤ qr.1.length := by
  haveI : IsTotal (String × String) (fun a b => b.1.length ≤ a.1.length) :=
    ⟨fun a b => Nat.le_total b.1.length a.1.length⟩
  haveI : IsTrans (String × String) (fun a b => b.1.length ≤ a.1.length) :=
    ⟨fun _ _ _ hab hbc => Nat.le_trans hbc hab⟩
  have hperm : List.Perm (sortByLenDesc (allRulePairs lib_map)) (allRulePairs lib_map) :=
    List.perm_insertionSort _ _
  have hsorted : List.Pairwise (fun a b : String × String => b.1.length ≤ a.1.length)
      (sortByLenDesc (allRulePairs lib_map)) :=
    List.sorted_insertionSort _ _
  constructor
  · intro hnone
    cases hfind : (sortByLenDesc (allRulePairs lib_map)).find?
        (fun pr => strStartsWith rel pr.1) with
    | none =>
      simp only [get_library_for_path, hfind]
    | some pr =>
      have hp := (find?_eq_some_split _ _ _ hfind).1
      have hmem : pr ∈ allRulePairs lib_map :=
        hperm.mem_iff.mp (List.mem_of_find?_eq_some hfind)
      rw [hnone pr hmem] at hp
      exact absurd hp (by simp)
  · intro pr hpr hmatch
    cases hfind : (sortByLenDesc (allRulePairs lib_map)).find?
        (fun pr => strStartsWith rel pr.1) with
    | none =>
      have := List.find?_eq_none.mp hfind pr (hperm.mem_iff.mpr hpr)
      simp [hmatch] at this
    | some qr =>
      obtain ⟨hq, l₁, l₂, hsplit, hfail⟩ := find?_eq_some_split _ _ _ hfind
      refine ⟨qr, hperm.mem_iff.mp (List.mem_of_find?_eq_some hfind), hq, ?_, ?_⟩
      · simp only [get_library_for_path, hfind]
      · intro rr hrr hrmatch
        have hrr' : rr ∈ sortByLenDesc (allRulePairs lib_map) := hperm.mem_iff.mpr hrr
        rw [hsplit] at hrr' hsorted
        rcases List.mem_append.mp hrr' with h1 | h2
        · have := hfail rr h1
          rw [hrmatch] at this
          exact absurd this (by simp)
        · rcases List.mem_cons.mp h2 with rfl | h2
          · exact Nat.le_refl _
          · exact (List.pairwise_cons.mp (List.pairwise_append.mp hsorted).2.1).1 rr h2

/-- Witness for C8 at the spec's example: rules `{libA: "src",
libB: "src/special"}` classify `src/special/x.ext` by the longest matching
rule (`libB`, as the theorem's existential shows and as evaluation
confirms). -/
theorem c8_longest_matching_rule_wins_witness :
    get_library_for_path "src/special/x.ext" [("libA", ["src"]), ("libB", ["src/special"])] ""
      = "libB"
    ∧ get_library_for_path "src/other/y.ext" [("libA", ["src"]), ("libB", ["src/special"])] ""
      = "libA"
    ∧ ∃ qr, qr ∈ allRulePairs [("libA", ["src"]), ("libB", ["src/special"])] ∧
        strStartsWith "src/special/x.ext" qr.1 = true ∧
        get_library_for_path "src/special/x.ext"
          [("libA", ["src"]), ("libB", ["src/special"])] "" = qr.2 ∧
        ∀ rr ∈ allRulePairs [("libA", ["src"]), ("libB", ["src/special"])],
          strStartsWith "src/special/x.ext" rr.1 = true → rr.1.length ≤ qr.1.length :=
  ⟨by decide, by decide,
    (c8_longest_matching_rule_wins "src/special/x.ext"
      [("libA", ["src"]), ("libB", ["src/special"])] "").2
      ("src/special", "libB") (by decide) (by decide)⟩

/-! ## Claim C6 -/

/-- C6 witness fixture: a qualified reference `mylib.u` in `t.vhd` while a
same-named unit `u` exists only under library `other`. -/
def envQualifiedMiss : Env :=
  ⟨[("/p/t.vhd", ⟨[(some "mylib", "u")], [], []⟩)], ["/p/t.vhd"]⟩

/-- Unit index for `envQualifiedMiss`: `u` defined only under `other`. -/
def umOtherLib : UnitMap := [(("other", "u"), ["/q/d.vhd"])]

/-- C6: candidate gathering with an explicit non-`work` hint looks up exactly
the `(hint, name)` key and never falls back to other libraries — a qualified
reference with no matching key yields zero candidates and
`find_dependencies_in_file` reports it unresolved even when same-named
buckets exist under other libraries (the final conjunct constrains the rest
of the index in no way) — while a reference with no hint, or with a `work`
hint, gathers from every bucket whose unit name matches, across all
libraries. -/
theorem c6_explicit_hint_is_hard_directive (unit_map : UnitMap) (h name : String) :
    (strToLower h ≠ "work" →
      gatherCandidates unit_map (some h) name
        = (List.lookup (strToLower h, name) unit_map).getD [])
    ∧ (strToLower h ≠ "work" → List.lookup (strToLower h, name) unit_map = none →
        gatherCandidates unit_map (some h) name = [])
    ∧ gatherCandidates unit_map none name = implicitGather unit_map name
    ∧ (strToLower h = "work" →
        gatherCandidates unit_map (some h) name = implicitGather unit_map name)
    ∧ ∀ (env : Env) (p u dflt : String),
        env.read p = some ⟨[(some h, u)], [], []⟩ →
        strEndsWith (strToLower p) ".vhd" = true →
        strToLower h ≠ "work" → strToLower h ≠ "ieee" →
        List.lookup (strToLower h, strToLower u) unit_map = none →
        find_dependencies_in_file env unit_map dflt p
          = some ⟨[], [(baseName p, h ++ "." ++ u)], []⟩ := by
  refine ⟨?_, ?_, rfl, ?_, ?_⟩
  · intro hw
    simp only [gatherCandidates, if_pos hw]
    cases List.lookup (strToLower h, name) unit_map <;> rfl
  · intro hw hl
    simp [gatherCandidates, if_pos hw, hl]
  · intro hw
    simp [gatherCandidates, hw]
  · intro env p u dflt hread hvhd hw hieee hlk
    simp only [find_dependencies_in_file, hread, hvhd, Bool.true_or, if_pos,
      List.foldlM, processVhdlRef, gatherCandidates, if_pos hw, hlk]
    simp [hieee]

/-- Witness for C6: at the fixture where `u` is defined only under library
`other`, the reference qualified with `mylib` is reported unresolved (no
edge, one warning naming `t.vhd` and `mylib.u`) rather than falling back to
the other library. -/
theorem c6_explicit_hint_is_hard_directive_witness :
    find_dependencies_in_file envQualifiedMiss umOtherLib "" "/p/t.vhd"
      = some ⟨[], [("t.vhd", "mylib.u")], []⟩ :=
  (c6_explicit_hint_is_hard_directive umOtherLib "mylib" "u").2.2.2.2
    envQualifiedMiss "/p/t.vhd" "u" "" (by decide) (by decide) (by decide) (by decide)
    (by decide)

/-! ## Claim C7: path component lemmas -/

/-- `splitChars` never returns an empty list of pieces. -/
theorem splitChars_ne_nil (cs : List Char) : splitChars cs ≠ [] := by
  cases cs with
  | nil => simp [splitChars]
  | cons c cs =>
    simp only [splitChars]
    by_cases hc : c = '/'
    · simp [hc]
    · rw [if_neg hc]
      cases splitChars cs <;> simp

/-- Pieces produced by `splitChars` contain no separator. -/
theorem splitChars_no_slash (cs : List Char) : ∀ l ∈ splitChars cs, '/' ∉ l := by
  induction cs with
  | nil =>
    intro l hl
    simp only [splitChars, List.mem_singleton] at hl
    simp [hl]
  | cons c cs ih =>
    intro l hl
    simp only [splitChars] at hl
    by_cases hc : c = '/'
    · rw [if_pos hc] at hl
      rcases List.mem_cons.mp hl with rfl | hl
      · simp
      · exact ih l hl
    · rw [if_neg hc] at hl
      cases hr : splitChars cs with
      | nil => exact absurd hr (splitChars_ne_nil cs)
      | cons h t =>
        rw [hr] at hl
        rcases List.mem_cons.mp hl with rfl | hl
        · intro hmem
          rcases List.mem_cons.mp hmem with h1 | h1
          · exact hc h1.symm
          · exact ih h (by rw [hr]; exact List.mem_cons_self _ _) h1
        · exact ih l (by rw [hr]; exact List.mem_cons_of_mem _ hl)

/-- A separator-free character list is one single piece. -/
theorem splitChars_of_no_slash (cs : List Char) (h : '/' ∉ cs) : splitChars cs = [cs] := by
  induction cs with
  | nil => simp [splitChars]
  | cons c cs ih =>
    have hc : c ≠ '/' := fun hcc => h (hcc ▸ List.mem_cons_self _ _)
    have hcs : '/' ∉ cs := fun hin => h (List.mem_cons_of_mem _ hin)
    simp only [splitChars, if_neg hc, ih hcs]

/-- Splitting after appending a separator splits at that separator. -/
theorem splitChars_append_slash (pre rest : List Char) (h : '/' ∉ pre) :
    splitChars (pre ++ '/' :: rest) = pre :: splitChars rest := by
  induction pre with
  | nil => simp [splitChars]
  | cons a pre ih =>
    have ha : a ≠ '/' := fun hcc => h (hcc ▸ List.mem_cons_self _ _)
    have hpre : '/' ∉ pre := fun hin => h (List.mem_cons_of_mem _ hin)
    simp only [List.cons_append, splitChars, if_neg ha, List.append_eq, ih hpre]

/-- Components obtained from `splitOnSlash` are separator-free. -/
theorem splitOnSlash_no_slash (p : String) : ∀ x ∈ splitOnSlash p, '/' ∉ x.data := by
  intro x hx
  simp only [splitOnSlash, List.mem_map] at hx
  obtain ⟨l, hl, rfl⟩ := hx
  exact splitChars_no_slash p.data l hl

/-- `splitOnSlash` inverts `joinPath` on nonempty separator-free components. -/
theorem splitOnSlash_joinPath (ds : List String) (hne : ds ≠ [])
    (h : ∀ x ∈ ds, '/' ∉ x.data) : splitOnSlash (joinPath ds) = ds := by
  induction ds with
  | nil => exact absurd rfl hne
  | cons c cs ih =>
    cases cs with
    | nil =>
      show splitOnSlash (joinPath [c]) = [c]
      have hc : '/' ∉ c.data := h c (List.mem_cons_self _ _)
      simp [joinPath, splitOnSlash, splitChars_of_no_slash c.data hc]
    | cons c' cs' =>
      have hc : '/' ∉ c.data := h c (List.mem_cons_self _ _)
      have hdata : (joinPath (c :: c' :: cs')).data
          = c.data ++ '/' :: (joinPath (c' :: cs')).data := by
        show (c ++ "/" ++ joinPath (c' :: cs')).data = _
        rw [String.data_append, String.data_append]
        simp
      have ih' := ih (by simp) (fun x hx => h x (List.mem_cons_of_mem _ hx))
      have h2 : List.map (fun l => (⟨l⟩ : String)) (splitChars (joinPath (c' :: cs')).data)
          = c' :: cs' := by
        simpa [splitOnSlash] using ih'
      simp only [splitOnSlash, hdata, splitChars_append_slash _ _ hc, List.map_cons, h2]

/-- A well-formed absolute path: a leading separator followed by at least one
component, with no empty component (no `//` and no trailing separator).  The
fixtures and any path produced by a real file system walk satisfy this. -/
def wfAbs (p : String) : Bool :=
  match splitOnSlash p with
  | a :: c :: cs => a == "" && (c :: cs).all fun comp => comp != ""
  | _ => false

/-- Unfolding of `wfAbs`. -/
theorem wfAbs_spec (p : String) (h : wfAbs p = true) :
    ∃ C, splitOnSlash p = "" :: C ∧ C ≠ [] ∧ ∀ comp ∈ C, comp ≠ "" := by
  unfold wfAbs at h
  cases hs : splitOnSlash p with
  | nil => rw [hs] at h; simp at h
  | cons a as =>
    cases as with
    | nil => rw [hs] at h; simp at h
    | cons b bs =>
      rw [hs] at h
      simp only [Bool.and_eq_true, beq_iff_eq] at h
      obtain ⟨rfl, hall⟩ := h
      refine ⟨b :: bs, rfl, by simp, ?_⟩
      intro comp hcomp
      have := List.all_eq_true.mp hall comp hcomp
      simpa using this

/-- A path whose first component is empty and which has a second component
starts with the separator. -/
theorem startsWith_slash_of_split (p : String) (c2 : String) (cs : List String)
    (h : splitOnSlash p = "" :: c2 :: cs) : strStartsWith p "/" = true := by
  cases hd : p.data with
  | nil =>
    exfalso
    have : splitOnSlash p = [""] := by simp [splitOnSlash, hd, splitChars]
    rw [h] at this
    simp at this
  | cons a as =>
    by_cases ha : a = '/'
    · simp [strStartsWith, hd, ha, List.isPrefixOf]
    · exfalso
      have : splitOnSlash p = List.map (fun l => (⟨l⟩ : String)) (splitChars (a :: as)) := by
        simp [splitOnSlash, hd]
      rw [h] at this
      simp only [splitChars, if_neg ha] at this
      cases hr : splitChars as with
      | nil => exact absurd hr (splitChars_ne_nil as)
      | cons hh tt =>
        rw [hr] at this
        have : ("" : String) = ⟨a :: hh⟩ := by
          have := congrArg (fun l => l.headI) this
          simpa using this
        have := congrArg String.data this
        simp at this

/-- Dropping the last component does not change the common prefix with `R`
unless the whole of `C` is a prefix of `R`. -/
theorem commonPrefixL_dropLast (R C : List String) (hne : C ≠ [])
    (h : C.isPrefixOf R = false) : commonPrefixL R C = commonPrefixL R C.dropLast := by
  induction C generalizing R with
  | nil => exact absurd rfl hne
  | cons x C' ih =>
    cases C' with
    | nil =>
      cases R with
      | nil => simp [commonPrefixL]
      | cons r R' =>
        by_cases hr : r = x
        · subst hr
          simp [List.isPrefixOf] at h
        · simp [commonPrefixL, hr]
    | cons y C'' =>
      cases R with
      | nil => simp [commonPrefixL]
      | cons r R' =>
        by_cases hr : r = x
        · subst hr
          have h' : (y :: C'').isPrefixOf R' = false := by
            simpa [List.isPrefixOf] using h
          show commonPrefixL (r :: R') (r :: y :: C'')
              = commonPrefixL (r :: R') (r :: (y :: C'').dropLast)
          simp only [commonPrefixL, if_pos rfl]
          rw [ih R' (by simp) h']
        · simp [commonPrefixL, hr]

/-- Bridge between the source's metric and the claim's wording: for
well-formed absolute paths, and provided the candidate file path is not
itself a component-prefix of the referencing directory (impossible on a real
file system, where a path cannot be both a file and a directory), the common
path of the referencing directory with the candidate's *directory* equals
its common path with the candidate's file path — the quantity the source
computes. -/
theorem commonPath_dirName (d c : String) (hwd : wfAbs d = true) (hwc : wfAbs c = true)
    (hfs : (splitOnSlash c).isPrefixOf (splitOnSlash d) = false) :
    commonPath d (dirName c) = commonPath d c := by
  obtain ⟨D, hD, hDne, hDcomp⟩ := wfAbs_spec d hwd
  obtain ⟨C, hC, hCne, hCcomp⟩ := wfAbs_spec c hwc
  cases C with
  | nil => exact absurd rfl hCne
  | cons c1 Cr =>
    cases Cr with
    | nil =>
      have hstart : strStartsWith c "/" = true := startsWith_slash_of_split c c1 [] hC
      have hdn : dirName c = "/" := by
        unfold dirName
        rw [hC]
        simp [joinPath, hstart]
      rw [hdn]
      have hsplitRoot : splitOnSlash "/" = ["", ""] := rfl
      unfold commonPath
      rw [hD, hC, hsplitRoot]
      cases D with
      | nil => exact absurd rfl hDne
      | cons d1 Dr =>
        have hd1 : d1 ≠ "" := hDcomp d1 (List.mem_cons_self _ _)
        have hc1d1 : c1 ≠ d1 := by
          intro heq
          rw [hC, hD] at hfs
          simp [List.isPrefixOf, heq] at hfs
        have e1 : commonPrefixL (d1 :: Dr) [""] = [] := by
          simp [commonPrefixL, hd1]
        have e2 : commonPrefixL (d1 :: Dr) [c1] = [] := by
          simp [commonPrefixL, Ne.symm hc1d1]
        have f1 : commonPrefixL ("" :: d1 :: Dr) ["", ""] = [""] := by
          show (if ("" : String) = "" then "" :: commonPrefixL (d1 :: Dr) [""] else []) = [""]
          rw [if_pos rfl, e1]
        have f2 : commonPrefixL ("" :: d1 :: Dr) ["", c1] = [""] := by
          show (if ("" : String) = "" then "" :: commonPrefixL (d1 :: Dr) [c1] else []) = [""]
          rw [if_pos rfl, e2]
        rw [f1, f2]
    | cons c2 Cs =>
      have hnoslash : ∀ x ∈ ("" :: c1 :: (c2 :: Cs).dropLast), '/' ∉ x.data := by
        intro x hx
        rcases List.mem_cons.mp hx with rfl | hx
        · simp
        · refine splitOnSlash_no_slash c x ?_
          rw [hC]
          exact List.mem_cons_of_mem _ (List.dropLast_subset _ hx)
      have hjne : joinPath ("" :: c1 :: (c2 :: Cs).dropLast) ≠ "" := by
        show ("" ++ "/" ++ joinPath (c1 :: (c2 :: Cs).dropLast)) ≠ ""
        intro heq
        have hdata := congrArg String.data heq
        rw [String.data_append, String.data_append] at hdata
        simp at hdata
      have hdn : dirName c = joinPath ("" :: c1 :: (c2 :: Cs).dropLast) := by
        unfold dirName
        rw [hC]
        show (if joinPath ("" :: c1 :: (c2 :: Cs).dropLast) = "" then _ else _) = _
        rw [if_neg hjne]
        rfl
      rw [hdn]
      unfold commonPath
      rw [splitOnSlash_joinPath _ (by simp) hnoslash, hC]
      have hdl := commonPrefixL_dropLast (splitOnSlash d) ("" :: c1 :: c2 :: Cs) (by simp)
        (by rw [← hC]; exact hfs)
      have hdl' : commonPrefixL (splitOnSlash d) ("" :: c1 :: c2 :: Cs)
          = commonPrefixL (splitOnSlash d) ("" :: c1 :: (c2 :: Cs).dropLast) := hdl
      rw [← hdl']

/-- The strict-improvement scan of `get_best_path_by_proximity`: starting
from a current best `b`, the fold returns the first element of `b :: l`
attaining the maximal proximity metric. -/
theorem proximity_foldl_spec (d : String) (l : List String) :
    ∀ b : String,
      ∃ r l₁ l₂,
        (l.foldl (proxStep d) (some b, ((commonPathLen d b : Nat) : Int))).1 = some r ∧
        b :: l = l₁ ++ r :: l₂ ∧
        (∀ x ∈ l₁, commonPathLen d x < commonPathLen d r) ∧
        ∀ x ∈ b :: l, commonPathLen d x ≤ commonPathLen d r := by
  induction l with
  | nil =>
    intro b
    exact ⟨b, [], [], rfl, rfl, by simp, by simp⟩
  | cons c l ih =>
    intro b
    by_cases hcmp : ((commonPathLen d b : Nat) : Int) < ((commonPathLen d c : Nat) : Int)
    · obtain ⟨r, l₁, l₂, hfold, hsplit, hstrict, hle⟩ := ih c
      have hbc : commonPathLen d b < commonPathLen d c := Nat.cast_lt.mp hcmp
      have hcr : commonPathLen d c ≤ commonPathLen d r := hle c (List.mem_cons_self _ _)
      have hfc : proxStep d (some b, ((commonPathLen d b : Nat) : Int)) c
          = (some c, ((commonPathLen d c : Nat) : Int)) := by
        show (if ((commonPathLen d b : Nat) : Int) < ((commonPathLen d c : Nat) : Int)
            then ((some c : Option String), ((commonPathLen d c : Nat) : Int))
            else (some b, ((commonPathLen d b : Nat) : Int))) = _
        rw [if_pos hcmp]
      refine ⟨r, b :: l₁, l₂, ?_, ?_, ?_, ?_⟩
      · rw [List.foldl_cons, hfc]
        exact hfold
      · simp [hsplit]
      · intro x hx
        rcases List.mem_cons.mp hx with rfl | hx
        · exact Nat.lt_of_lt_of_le hbc hcr
        · exact hstrict x hx
      · intro x hx
        rcases List.mem_cons.mp hx with rfl | hx
        · exact Nat.le_trans (Nat.le_of_lt hbc) hcr
        · exact hle x hx
    · obtain ⟨r, l₁, l₂, hfold, hsplit, hstrict, hle⟩ := ih b
      have hcb : commonPathLen d c ≤ commonPathLen d b :=
        Nat.cast_le.mp (Int.not_lt.mp hcmp)
      have hfc : proxStep d (some b, ((commonPathLen d b : Nat) : Int)) c
          = (some b, ((commonPathLen d b : Nat) : Int)) := by
        show (if ((commonPathLen d b : Nat) : Int) < ((commonPathLen d c : Nat) : Int)
            then ((some c : Option String), ((commonPathLen d c : Nat) : Int))
            else (some b, ((commonPathLen d b : Nat) : Int))) = _
        rw [if_neg hcmp]
      have hbr : commonPathLen d b ≤ commonPathLen d r := hle b (List.mem_cons_self _ _)
      cases l₁ with
      | nil =>
        have hbr' : b = r := by
          have := congrArg (fun s : List String => s.headI) hsplit
          simpa using this
        subst hbr'
        have hl : l = l₂ := by
          have := congrArg (fun s : List String => s.tail) hsplit
          simpa using this
        subst hl
        refine ⟨b, [], c :: l, ?_, by simp, by simp, ?_⟩
        · rw [List.foldl_cons, hfc]
          exact hfold
        · intro x hx
          rcases List.mem_cons.mp hx with rfl | hx
          · exact Nat.le_refl _
          · rcases List.mem_cons.mp hx with rfl | hx
            · exact hcb
            · exact hle x (List.mem_cons_of_mem _ hx)
      | cons h₁ t₁ =>
        obtain ⟨rfl, hl⟩ : b = h₁ ∧ l = t₁ ++ r :: l₂ := by
          constructor
          · have := congrArg (fun s => s.headI) hsplit
            simpa using this
          · have := congrArg (fun s : List String => s.tail) hsplit
            simpa using this
        have hbstrict : commonPathLen d b < commonPathLen d r :=
          hstrict b (List.mem_cons_self _ _)
        refine ⟨r, b :: c :: t₁, l₂, ?_, ?_, ?_, ?_⟩
        · rw [List.foldl_cons, hfc]
          exact hfold
        · simp [hl]
        · intro x hx
          rcases List.mem_cons.mp hx with rfl | hx
          · exact hbstrict
          · rcases List.mem_cons.mp hx with rfl | hx
            · exact Nat.lt_of_le_of_lt hcb hbstrict
            · exact hstrict x (List.mem_cons_of_mem _ hx)
        · intro x hx
          rcases List.mem_cons.mp hx with rfl | hx
          · exact hbr
          · rcases List.mem_cons.mp hx with rfl | hx
            · exact Nat.le_trans hcb hbr
            · exact hle x (by rw [hl] at hx ⊢; exact List.mem_cons_of_mem _ hx)

/-- The source's proximity choice characterized: for a nonempty candidate
list the function selects the first candidate attaining the maximal
`len(commonpath(...))` against the referencing directory. -/
theorem get_best_path_by_proximity_spec (d : String) (l : List String) (hne : l ≠ []) :
    ∃ r l₁ l₂, get_best_path_by_proximity d l = some r ∧ l = l₁ ++ r :: l₂ ∧
      (∀ x ∈ l₁, commonPathLen d x < commonPathLen d r) ∧
      ∀ x ∈ l, commonPathLen d x ≤ commonPathLen d r := by
  cases l with
  | nil => exact absurd rfl hne
  | cons c l' =>
    by_cases hlen : (c :: l').length = 1
    · have hl' : l' = [] := by
        cases l' with
        | nil => rfl
        | cons a b => simp at hlen
      subst hl'
      exact ⟨c, [], [], by simp [get_best_path_by_proximity], rfl, by simp, by simp⟩
    · unfold get_best_path_by_proximity
      rw [if_neg hlen]
      have h0 : (-1 : Int) < ((commonPathLen d c : Nat) : Int) := by
        have := Int.natCast_nonneg (commonPathLen d c)
        omega
      have hfc : proxStep d ((none : Option String), (-1 : Int)) c
          = (some c, ((commonPathLen d c : Nat) : Int)) := by
        show (if (-1 : Int) < ((commonPathLen d c : Nat) : Int)
            then ((some c : Option String), ((commonPathLen d c : Nat) : Int))
            else ((none : Option String), (-1 : Int))) = _
        rw [if_pos h0]
      rw [List.foldl_cons, hfc]
      exact proximity_foldl_spec d l' c

/-- C7: when a reference has multiple candidate defining files, the resolver
selects the candidate whose absolute directory shares the longest common
path prefix with the referencing file's absolute directory, breaking ties in
favor of the candidate seen first in index insertion order.  The
side conditions state that all paths are well-formed absolute paths and that
no candidate file path is simultaneously a directory prefix of the
referencing directory — guaranteed on a real file system. -/
theorem c7_proximity_selects_nearest_first (d : String) (l : List String) (hne : l ≠ [])
    (hwd : wfAbs d = true) (hwc : ∀ c ∈ l, wfAbs c = true)
    (hfs : ∀ c ∈ l, (splitOnSlash c).isPrefixOf (splitOnSlash d) = false) :
    ∃ r l₁ l₂, get_best_path_by_proximity d l = some r ∧ l = l₁ ++ r :: l₂ ∧
      (∀ x ∈ l₁, (commonPath d (dirName x)).length < (commonPath d (dirName r)).length) ∧
      ∀ x ∈ l, (commonPath d (dirName x)).length ≤ (commonPath d (dirName r)).length := by
  obtain ⟨r, l₁, l₂, hbest, hsplit, hstrict, hle⟩ := get_best_path_by_proximity_spec d l hne
  have hrmem : r ∈ l := by
    rw [hsplit]
    exact List.mem_append_right _ (List.mem_cons_self _ _)
  have bridge : ∀ x ∈ l, (commonPath d (dirName x)).length = commonPathLen d x := by
    intro x hx
    rw [commonPath_dirName d x hwd (hwc x hx) (hfs x hx)]
    rfl
  refine ⟨r, l₁, l₂, hbest, hsplit, ?_, ?_⟩
  · intro x hx
    have hxl : x ∈ l := by
      rw [hsplit]
      exact List.mem_append_left _ hx
    rw [bridge x hxl, bridge r hrmem]
    exact hstrict x hx
  · intro x hx
    rw [bridge x hx, bridge r hrmem]
    exact hle x hx

/-- Witness for C7 at the spec's example: a referencing file at `/a/ref.ext`
(directory `/a`) with candidates `/a/b/def1.ext` and `/c/def2.ext` resolves
to `/a/b/def1.ext`. -/
theorem c7_proximity_selects_nearest_first_witness :
    get_best_path_by_proximity "/a" ["/a/b/def1.ext", "/c/def2.ext"] = some "/a/b/def1.ext"
    ∧ ∃ r l₁ l₂,
        get_best_path_by_proximity "/a" ["/a/b/def1.ext", "/c/def2.ext"] = some r ∧
        ["/a/b/def1.ext", "/c/def2.ext"] = l₁ ++ r :: l₂ ∧
        (∀ x ∈ l₁, (commonPath "/a" (dirName x)).length < (commonPath "/a" (dirName r)).length) ∧
        ∀ x ∈ ["/a/b/def1.ext", "/c/def2.ext"],
          (commonPath "/a" (dirName x)).length ≤ (commonPath "/a" (dirName r)).length :=
  ⟨by decide,
    c7_proximity_selects_nearest_first "/a" ["/a/b/def1.ext", "/c/def2.ext"]
      (by decide) (by decide) (by decide) (by decide)⟩

/-! ## Resolver metatheory: decomposition lemmas -/

/-- `dropWhile` splits off a satisfied prefix. -/
theorem dropWhile_decomp {α : Type} (p : α → Bool) (l : List α) :
    ∃ pre, l = pre ++ l.dropWhile p ∧ ∀ x ∈ pre, p x = true :=
  ⟨l.takeWhile p, (List.takeWhile_append_dropWhile p l).symm,
    fun _ hx => List.mem_takeWhile_imp hx⟩

/-- The head surviving `dropWhile` fails the predicate. -/
theorem dropWhile_head_false {α : Type} (p : α → Bool) (l : List α) (x : α) (xs : List α)
    (h : l.dropWhile p = x :: xs) : p x = false := by
  induction l with
  | nil => simp [List.dropWhile] at h
  | cons a as ih =>
    by_cases hpa : p a = true
    · rw [List.dropWhile_cons, if_pos hpa] at h
      exact ih h
    · rw [List.dropWhile_cons, if_neg hpa] at h
      obtain ⟨rfl, -⟩ : a = x ∧ as = xs := by
        constructor <;> injection h
      simpa using hpa

/-- Case analysis of one `advance` call. -/
theorem advance_cases (p : String) (ds : List String) (rest : List Frame) (s : RS) :
    (ds.dropWhile (fun d => s.visited.contains d) = [] ∧
      advance p ds rest s
        = { stack := rest, visited := s.visited, out := s.out ++ [p], warn := s.warn })
    ∨ ∃ d ds', ds.dropWhile (fun d => s.visited.contains d) = d :: ds' ∧
        s.visited.contains d = false ∧
        (((p :: rest.map Prod.fst).contains d = true ∧
          advance p ds rest s
            = { stack := (p, some ds') :: rest, visited := s.visited, out := s.out,
                warn := s.warn + 1 })
        ∨ ((p :: rest.map Prod.fst).contains d = false ∧
          advance p ds rest s
            = { stack := (d, none) :: (p, some ds') :: rest, visited := d :: s.visited,
                out := s.out, warn := s.warn })) := by
  cases hdw : ds.dropWhile (fun d => s.visited.contains d) with
  | nil =>
    left
    refine ⟨rfl, ?_⟩
    rw [advance, hdw]
    rfl
  | cons d ds' =>
    right
    refine ⟨d, ds', rfl, dropWhile_head_false _ _ _ _ hdw, ?_⟩
    by_cases hon : (p :: rest.map Prod.fst).contains d = true
    · left
      refine ⟨hon, ?_⟩
      rw [advance, hdw, advanceAux, if_pos hon]
    · right
      refine ⟨by simpa using hon, ?_⟩
      rw [advance, hdw, advanceAux, if_neg (by simpa using hon)]

/-- Case analysis of one `step`. -/
theorem step_cases (ex : String → Bool) (depsOf : String → Option (List String)) (s s' : RS)
    (h : step ex depsOf s = .cont s') :
    (∃ p rest, s.stack = (p, none) :: rest ∧ ex p = false
      ∧ s' = { s with stack := rest })
    ∨ (∃ p rest ds,
        ((s.stack = (p, none) :: rest ∧ ex p = true ∧ depsOf p = some ds)
          ∨ s.stack = (p, some ds) :: rest)
        ∧ s' = advance p ds rest s) := by
  cases hst : s.stack with
  | nil => simp [step, hst] at h
  | cons f rest =>
    obtain ⟨p, cur⟩ := f
    cases cur with
    | none =>
      by_cases hex : ex p = true
      · cases hdep : depsOf p with
        | none => simp [step, hst, hex, hdep] at h
        | some ds =>
          simp only [step, hst, hex, hdep, if_true] at h
          right
          exact ⟨p, rest, ds, Or.inl ⟨rfl, hex, hdep⟩, by injection h with h'; exact h'.symm⟩
      · simp only [step, hst, hex, if_false] at h
        left
        refine ⟨p, rest, rfl, by simpa using hex, ?_⟩
        injection h with h'
        exact h'.symm
    | some ds =>
      simp only [step, hst] at h
      right
      exact ⟨p, rest, ds, Or.inr rfl, by injection h with h'; exact h'.symm⟩

/-! ## Claim C10: the top-level file is emitted last -/

/-- Invariant: the bottom of the stack is the top-level file's frame, or the
stack is empty and the output ends with the top-level file. -/
def BotInv (top : String) (s : RS) : Prop :=
  (∃ pre c, s.stack = pre ++ [(top, c)])
  ∨ (s.stack = [] ∧ s.out ≠ [] ∧ s.out.getLast? = some top)

/-- `BotInv` is preserved by every continuing step, provided the top-level
file exists on disk. -/
theorem botInv_step (top : String) (ex : String → Bool)
    (depsOf : String → Option (List String)) (hex : ex top = true) (s s' : RS)
    (hinv : BotInv top s) (h : step ex depsOf s = .cont s') : BotInv top s' := by
  rcases hinv with ⟨pre, c, hstack⟩ | ⟨hstack, -, -⟩
  · rcases step_cases ex depsOf s s' h with
      ⟨p, rest, hst, hexp, hs'⟩ | ⟨p, rest, ds, hcase, hs'⟩
    · -- nonexistent unexpanded frame popped
      cases pre with
      | nil =>
        exfalso
        rw [hstack] at hst
        obtain ⟨h1, -⟩ : (top, c) = (p, none) ∧ [] = rest := by
          constructor <;> injection hst
        obtain ⟨rfl, -⟩ : top = p ∧ c = none := by
          constructor <;> injection h1
        rw [hexp] at hex
        cases hex
      | cons q pre' =>
        rw [hstack] at hst
        obtain ⟨-, h2⟩ : q = (p, none) ∧ pre' ++ [(top, c)] = rest := by
          constructor <;> injection hst
        left
        exact ⟨pre', c, by rw [hs', ← h2]⟩
    · -- an advance step
      have hstack' : ∃ cur, s.stack = (p, cur) :: rest := by
        rcases hcase with ⟨h1, -, -⟩ | h1
        · exact ⟨none, h1⟩
        · exact ⟨some ds, h1⟩
      obtain ⟨cur, hstk⟩ := hstack'
      rcases advance_cases p ds rest s with
        ⟨hdw, hadv⟩ | ⟨d, ds', hdw, hdnv, ⟨hon, hadv⟩ | ⟨hon, hadv⟩⟩
      · -- pop and append p
        cases pre with
        | nil =>
          rw [hstack] at hstk
          obtain ⟨h1, h2⟩ : (top, c) = (p, cur) ∧ [] = rest := by
            constructor <;> injection hstk
          obtain ⟨rfl, -⟩ : top = p ∧ c = cur := by
            constructor <;> injection h1
          right
          rw [hs', hadv, ← h2]
          refine ⟨rfl, by simp, by simp⟩
        | cons q pre' =>
          rw [hstack] at hstk
          obtain ⟨-, h2⟩ : q = (p, cur) ∧ pre' ++ [(top, c)] = rest := by
            constructor <;> injection hstk
          left
          exact ⟨pre', c, by rw [hs', hadv, ← h2]⟩
      · -- cycle message: stack shape preserved
        left
        rw [hstack] at hstk
        cases pre with
        | nil =>
          obtain ⟨h1, h2⟩ : (top, c) = (p, cur) ∧ [] = rest := by
            constructor <;> injection hstk
          obtain ⟨rfl, -⟩ : top = p ∧ c = cur := by
            constructor <;> injection h1
          exact ⟨[], some ds', by rw [hs', hadv, ← h2]; simp⟩
        | cons q pre' =>
          obtain ⟨-, h2⟩ : q = (p, cur) ∧ pre' ++ [(top, c)] = rest := by
            constructor <;> injection hstk
          exact ⟨(p, some ds') :: pre', c, by rw [hs', hadv, ← h2]; simp⟩
      · -- push: stack extended on top
        left
        rw [hstack] at hstk
        cases pre with
        | nil =>
          obtain ⟨h1, h2⟩ : (top, c) = (p, cur) ∧ [] = rest := by
            constructor <;> injection hstk
          obtain ⟨rfl, -⟩ : top = p ∧ c = cur := by
            constructor <;> injection h1
          exact ⟨[(d, none)], some ds', by rw [hs', hadv, ← h2]; simp⟩
        | cons q pre' =>
          obtain ⟨-, h2⟩ : q = (p, cur) ∧ pre' ++ [(top, c)] = rest := by
            constructor <;> injection hstk
          exact ⟨(d, none) :: (p, some ds') :: pre', c, by rw [hs', hadv, ← h2]; simp⟩
  · -- the stack is empty: `step` cannot continue
    exfalso
    rcases step_cases ex depsOf s s' h with
      ⟨p, rest, hst, -, -⟩ | ⟨p, rest, ds, hcase, -⟩
    · rw [hstack] at hst; cases hst
    · rcases hcase with ⟨h1, -, -⟩ | h1 <;> rw [hstack] at h1 <;> cases h1

/-- On any completed `ok` run from a `BotInv` state, the output is nonempty
and ends with the top-level file. -/
theorem run_ok_last (top : String) (ex : String → Bool)
    (depsOf : String → Option (List String)) (hex : ex top = true) :
    ∀ (n : Nat) (s : RS) (out : List String) (warn : Nat), BotInv top s →
      run ex depsOf n s = some (.ok out warn) → out ≠ [] ∧ out.getLast? = some top := by
  intro n
  induction n with
  | zero => intro s out warn _ hrun; cases hrun
  | succ m ih =>
    intro s out warn hinv hrun
    rw [run] at hrun
    cases hstep : step ex depsOf s with
    | done o w =>
      rw [hstep] at hrun
      obtain ⟨h1, -⟩ : o = out ∧ w = warn := by
        injection hrun with h'
        constructor <;> injection h'
      have hempty : s.stack = [] := by
        cases hst : s.stack with
        | nil => rfl
        | cons f rest =>
          obtain ⟨p, cur⟩ := f
          cases cur with
          | none =>
            by_cases hexp : ex p = true
            · cases hdep : depsOf p with
              | none => simp [step, hst, hexp, hdep] at hstep
              | some ds => simp [step, hst, hexp, hdep] at hstep
            · simp [step, hst, hexp] at hstep
          | some ds => simp [step, hst] at hstep
      rcases hinv with ⟨pre, c, hstack⟩ | ⟨-, hne, hlast⟩
      · rw [hempty] at hstack
        cases pre <;> cases hstack
      · have : s.out = o := by
          rw [step, hempty] at hstep
          injection hstep with h1 h2
        subst h1
        rw [← this]
        exact ⟨hne, hlast⟩
    | crash => rw [hstep] at hrun; cases hrun
    | cont s' =>
      rw [hstep] at hrun
      exact ih s' out warn (botInv_step top ex depsOf hex s s' hinv hstep) hrun

/-! ## Termination of the resolver -/

/-- Cursor soundness: every installed cursor is a tail segment of the
dependency list `find_dependencies_in_file` returned for that frame. -/
def CursorInv (depsOf : String → Option (List String)) (s : RS) : Prop :=
  ∀ p ds, (p, some ds) ∈ s.stack → ∃ ds₀ pre, depsOf p = some ds₀ ∧ ds₀ = pre ++ ds

/-- Frame weight for the termination measure. -/
def cursorWeight (W : Nat) : Frame → Nat
  | (_, none) => W
  | (_, some ds) => ds.length + 1

/-- Total stack weight. -/
def stackWeight (W : Nat) (s : RS) : Nat := (s.stack.map (cursorWeight W)).sum

/-- Number of universe paths not yet visited. -/
def unvisitedCount (U : List String) (s : RS) : Nat :=
  (U.filter fun u => !(s.visited.contains u)).length

/-- The termination measure of the `while stack:` loop. -/
def measureRS (U : List String) (W : Nat) (s : RS) : Nat :=
  unvisitedCount U s * W + stackWeight W s

/-- Filtering with a stronger predicate keeps no more elements. -/
theorem length_filter_mono {α : Type} (p₁ p₂ : α → Bool)
    (hmono : ∀ x, p₂ x = true → p₁ x = true) :
    ∀ U : List α, (U.filter p₂).length ≤ (U.filter p₁).length := by
  intro U
  induction U with
  | nil => simp
  | cons a U' ih =>
    by_cases ha2 : p₂ a = true
    · simp only [List.filter_cons, ha2, hmono a ha2, if_true, List.length_cons]
      omega
    · have ha2' : p₂ a = false := by simpa using ha2
      cases ha1 : p₁ a with
      | false => simp only [List.filter_cons, ha2', ha1, Bool.false_eq_true, if_false]; omega
      | true =>
        simp only [List.filter_cons, ha2', ha1, Bool.false_eq_true, if_false, if_true,
          List.length_cons]
        omega

/-- Filtering with a stronger predicate that loses a present element keeps
strictly fewer elements. -/
theorem length_filter_lt {α : Type} (p₁ p₂ : α → Bool)
    (hmono : ∀ x, p₂ x = true → p₁ x = true) (U : List α) (d : α) (hd : d ∈ U)
    (h1 : p₁ d = true) (h2 : p₂ d = false) :
    (U.filter p₂).length < (U.filter p₁).length := by
  induction U with
  | nil => simp at hd
  | cons a U' ih =>
    rcases List.mem_cons.mp hd with rfl | hd'
    · have := length_filter_mono p₁ p₂ hmono U'
      simp only [List.filter_cons, h1, h2, Bool.false_eq_true, if_false, if_true,
        List.length_cons]
      omega
    · by_cases ha2 : p₂ a = true
      · have := ih hd'
        simp only [List.filter_cons, ha2, hmono a ha2, if_true, List.length_cons]
        omega
      · have ha2' : p₂ a = false := by simpa using ha2
        have := ih hd'
        cases ha1 : p₁ a with
        | false =>
          simp only [List.filter_cons, ha2', ha1, Bool.false_eq_true, if_false]
          omega
        | true =>
          simp only [List.filter_cons, ha2', ha1, Bool.false_eq_true, if_false, if_true,
            List.length_cons]
          omega

/-- `CursorInv` is preserved by every continuing step. -/
theorem cursorInv_step (ex : String → Bool) (depsOf : String → Option (List String))
    (s s' : RS) (hinv : CursorInv depsOf s) (h : step ex depsOf s = .cont s') :
    CursorInv depsOf s' := by
  rcases step_cases ex depsOf s s' h with
    ⟨p, rest, hst, hexp, hs'⟩ | ⟨p, rest, ds, hcase, hs'⟩
  · intro q qs hq
    apply hinv
    rw [hst]
    rw [hs'] at hq
    exact List.mem_cons_of_mem _ hq
  · have hds : ∃ ds₀ pre₀, depsOf p = some ds₀ ∧ ds₀ = pre₀ ++ ds := by
      rcases hcase with ⟨-, -, hdep⟩ | hst
      · exact ⟨ds, [], hdep, rfl⟩
      · exact hinv p ds (by rw [hst]; exact List.mem_cons_self _ _)
    obtain ⟨ds₀, pre₀, hdep, hpre₀⟩ := hds
    have hrest : ∀ q qs, (q, some qs) ∈ rest →
        ∃ a b, depsOf q = some a ∧ a = b ++ qs := by
      intro q qs hq
      apply hinv
      rcases hcase with ⟨hst, -, -⟩ | hst <;> rw [hst] <;>
        exact List.mem_cons_of_mem _ hq
    obtain ⟨dpre, hdD, -⟩ := dropWhile_decomp (fun d => s.visited.contains d) ds
    rcases advance_cases p ds rest s with
      ⟨hdw, hadv⟩ | ⟨d, ds', hdw, -, ⟨-, hadv⟩ | ⟨-, hadv⟩⟩
    · rw [hs', hadv]
      intro q qs hq
      exact hrest q qs hq
    · rw [hs', hadv]
      intro q qs hq
      rcases List.mem_cons.mp hq with heq | hq
      · injection heq with e1 e2
        injection e2 with e3
        subst e1
        refine ⟨ds₀, pre₀ ++ (dpre ++ [d]), hdep, ?_⟩
        rw [hpre₀, hdD, hdw, ← e3]
        simp
      · exact hrest q qs hq
    · rw [hs', hadv]
      intro q qs hq
      rcases List.mem_cons.mp hq with heq | hq
      · exfalso
        injection heq with e1 e2
        cases e2
      · rcases List.mem_cons.mp hq with heq | hq
        · injection heq with e1 e2
          injection e2 with e3
          subst e1
          refine ⟨ds₀, pre₀ ++ (dpre ++ [d]), hdep, ?_⟩
          rw [hpre₀, hdD, hdw, ← e3]
          simp
        · exact hrest q qs hq

/-- Every continuing step strictly decreases the termination measure, given
the universe and width bounds on the edge function. -/
theorem measure_decreases (U : List String) (W : Nat) (ex : String → Bool)
    (depsOf : String → Option (List String))
    (hU : ∀ p ds, depsOf p = some ds → ∀ x ∈ ds, x ∈ U)
    (hW : ∀ p ds, depsOf p = some ds → ds.length + 2 ≤ W)
    (hW1 : 1 ≤ W) (s s' : RS) (hcur : CursorInv depsOf s)
    (h : step ex depsOf s = .cont s') : measureRS U W s' < measureRS U W s := by
  rcases step_cases ex depsOf s s' h with
    ⟨p, rest, hst, hexp, hs'⟩ | ⟨p, rest, ds, hcase, hs'⟩
  · have hm' : measureRS U W s'
        = (U.filter fun u => !(s.visited.contains u)).length * W
          + (rest.map (cursorWeight W)).sum := by
      rw [hs']
      rfl
    have hmS : measureRS U W s
        = (U.filter fun u => !(s.visited.contains u)).length * W
          + (W + (rest.map (cursorWeight W)).sum) := by
      unfold measureRS stackWeight unvisitedCount
      rw [hst]
      rfl
    rw [hm', hmS]
    generalize (U.filter fun u => !(s.visited.contains u)).length * W = A
    omega
  · have hds : ∃ ds₀ pre₀, depsOf p = some ds₀ ∧ ds₀ = pre₀ ++ ds := by
      rcases hcase with ⟨-, -, hdep⟩ | hst
      · exact ⟨ds, [], hdep, rfl⟩
      · exact hcur p ds (by rw [hst]; exact List.mem_cons_self _ _)
    obtain ⟨ds₀, pre₀, hdep, hpre₀⟩ := hds
    have hlends : ds.length + 2 ≤ W := by
      have hh := hW p ds₀ hdep
      rw [hpre₀, List.length_append] at hh
      omega
    have hmemU : ∀ x ∈ ds, x ∈ U := fun x hx =>
      hU p ds₀ hdep x (by rw [hpre₀]; exact List.mem_append_right _ hx)
    have hstk : ∃ cur, s.stack = (p, cur) :: rest
        ∧ ds.length + 1 ≤ cursorWeight W (p, cur) ∧ 1 ≤ cursorWeight W (p, cur) := by
      rcases hcase with ⟨hst, -, -⟩ | hst
      · refine ⟨none, hst, ?_, ?_⟩ <;> simp [cursorWeight] <;> omega
      · refine ⟨some ds, hst, ?_, ?_⟩ <;> simp [cursorWeight]
    obtain ⟨cur, hst, how, how1⟩ := hstk
    have hmS : measureRS U W s
        = (U.filter fun u => !(s.visited.contains u)).length * W
          + (cursorWeight W (p, cur) + (rest.map (cursorWeight W)).sum) := by
      unfold measureRS stackWeight unvisitedCount
      rw [hst]
      rfl
    obtain ⟨dpre, hdD, -⟩ := dropWhile_decomp (fun d => s.visited.contains d) ds
    rcases advance_cases p ds rest s with
      ⟨hdw, hadv⟩ | ⟨d, ds', hdw, hdnv, ⟨-, hadv⟩ | ⟨hon, hadv⟩⟩
    · have hm' : measureRS U W s'
          = (U.filter fun u => !(s.visited.contains u)).length * W
            + (rest.map (cursorWeight W)).sum := by
        rw [hs', hadv]
        rfl
      rw [hm', hmS]
      generalize (U.filter fun u => !(s.visited.contains u)).length * W = A
      omega
    · have hlen' : ds'.length < ds.length := by
        have hh : ds.length = dpre.length + (ds'.length + 1) := by
          rw [hdD, hdw]
          simp
        omega
      have hm' : measureRS U W s'
          = (U.filter fun u => !(s.visited.contains u)).length * W
            + ((ds'.length + 1) + (rest.map (cursorWeight W)).sum) := by
        rw [hs', hadv]
        rfl
      rw [hm', hmS]
      generalize (U.filter fun u => !(s.visited.contains u)).length * W = A
      omega
    · have hlen' : ds'.length < ds.length := by
        have hh : ds.length = dpre.length + (ds'.length + 1) := by
          rw [hdD, hdw]
          simp
        omega
      have hdU : d ∈ U := hmemU d (by
        rw [hdD, hdw]
        exact List.mem_append_right _ (List.mem_cons_self _ _))
      have hcnt : (U.filter fun u => !((d :: s.visited).contains u)).length
          < (U.filter fun u => !(s.visited.contains u)).length := by
        apply length_filter_lt _ _ _ U d hdU
        · simpa using hdnv
        · simp
        · intro x hx
          simp only [Bool.not_eq_true', List.contains_cons] at hx ⊢
          simp at hx
          simp [hx.2]
      have hm' : measureRS U W s'
          = (U.filter fun u => !((d :: s.visited).contains u)).length * W
            + (W + ((ds'.length + 1) + (rest.map (cursorWeight W)).sum)) := by
        rw [hs', hadv]
        rfl
      have h1 : (U.filter fun u => !((d :: s.visited).contains u)).length * W + W
          ≤ (U.filter fun u => !(s.visited.contains u)).length * W := by
        have h2 : (U.filter fun u => !((d :: s.visited).contains u)).length + 1
            ≤ (U.filter fun u => !(s.visited.contains u)).length := hcnt
        calc (U.filter fun u => !((d :: s.visited).contains u)).length * W + W
            = ((U.filter fun u => !((d :: s.visited).contains u)).length + 1) * W := by
              rw [Nat.succ_mul]
          _ ≤ (U.filter fun u => !(s.visited.contains u)).length * W :=
              Nat.mul_le_mul_right W h2
      rw [hm', hmS]
      generalize hA : (U.filter fun u => !(s.visited.contains u)).length * W = A at h1
      generalize hB : (U.filter fun u => !((d :: s.visited).contains u)).length * W = B at h1
      omega

/-- With fuel exceeding the measure, the resolver's loop completes (either
finishing or raising). -/
theorem run_total (U : List String) (W : Nat) (ex : String → Bool)
    (depsOf : String → Option (List String))
    (hU : ∀ p ds, depsOf p = some ds → ∀ x ∈ ds, x ∈ U)
    (hW : ∀ p ds, depsOf p = some ds → ds.length + 2 ≤ W) (hW1 : 1 ≤ W) :
    ∀ (n : Nat) (s : RS), CursorInv depsOf s → measureRS U W s < n →
      ∃ r, run ex depsOf n s = some r := by
  intro n
  induction n with
  | zero => intro s _ hm; omega
  | succ m ih =>
    intro s hinv hm
    rw [run]
    cases hstep : step ex depsOf s with
    | done o w => exact ⟨.ok o w, rfl⟩
    | crash => exact ⟨.crashed, rfl⟩
    | cont s' =>
      have hd := measure_decreases U W ex depsOf hU hW hW1 s s' hinv hstep
      exact ih s' (cursorInv_step ex depsOf s s' hinv hstep) (by omega)

/-- C10: whenever the top-level file exists on disk, file-order resolution
terminates (a fuel bound exists under which the run completes), and every
completed non-crashing run returns a nonempty list whose last element is the
top-level file itself: it is pushed first, popped last, and appended only
after every other emitted file has been finalized.  `U` and `W` bound the
edge function's reach and width; any finite input provides them. -/
theorem c10_top_level_file_emitted_last (ex : String → Bool)
    (depsOf : String → Option (List String)) (top : String) (U : List String) (W : Nat)
    (hex : ex top = true)
    (hU : ∀ p ds, depsOf p = some ds → ∀ x ∈ ds, x ∈ U)
    (hW : ∀ p ds, depsOf p = some ds → ds.length + 2 ≤ W) (hW1 : 1 ≤ W) :
    (∃ n r, run ex depsOf n (initRS top) = some r)
    ∧ ∀ (n : Nat) (out : List String) (warn : Nat),
        run ex depsOf n (initRS top) = some (.ok out warn) →
        out ≠ [] ∧ out.getLast? = some top := by
  constructor
  · refine ⟨measureRS U W (initRS top) + 1,
      run_total U W ex depsOf hU hW hW1 _ _ ?_ (Nat.lt_succ_self _)⟩
    intro p ds hmem
    simp [initRS] at hmem
  · intro n out warn hrun
    exact run_ok_last top ex depsOf hex n _ out warn (Or.inl ⟨[], none, rfl⟩) hrun

/-- Witness for C10 on a two-file instance: the top file depends on one leaf
and, per the theorem, every completed run ends with the top file. -/
theorem c10_top_level_file_emitted_last_witness :
    (∃ n r, run (fun _ => true)
        (fun p => if p = "/t.vhd" then some ["/a.vhd"] else some [])
        n (initRS "/t.vhd") = some r)
    ∧ ∀ (n : Nat) (out : List String) (warn : Nat),
        run (fun _ => true) (fun p => if p = "/t.vhd" then some ["/a.vhd"] else some [])
          n (initRS "/t.vhd") = some (.ok out warn) →
        out ≠ [] ∧ out.getLast? = some "/t.vhd" :=
  c10_top_level_file_emitted_last (fun _ => true)
    (fun p => if p = "/t.vhd" then some ["/a.vhd"] else some [])
    "/t.vhd" ["/a.vhd"] 3 rfl
    (by
      intro p ds h x hx
      by_cases hp : p = "/t.vhd"
      · simp only [hp, if_true, if_pos] at h
        injection h with h'
        rw [← h'] at hx
        exact hx
      · simp only [if_neg hp] at h
        injection h with h'
        rw [← h'] at hx
        cases hx)
    (by
      intro p ds h
      by_cases hp : p = "/t.vhd"
      · simp only [hp, if_true, if_pos] at h
        injection h with h'
        rw [← h']
        simp
      · simp only [if_neg hp] at h
        injection h with h'
        rw [← h']
        simp)
    (by omega)

/-! ## Claim C5: topological validity -/

/-- `d` occurs at a strictly earlier position than `a` in `l`. -/
def Before (l : List String) (d a : String) : Prop :=
  ∃ i j : Nat, i < j ∧ l[i]? = some d ∧ l[j]? = some a

/-- `Before` is stable under appending on the right. -/
theorem Before.append (l l' : List String) (d a : String) (h : Before l d a) :
    Before (l ++ l') d a := by
  obtain ⟨i, j, hij, hi, hj⟩ := h
  have hjl : j < l.length := (List.getElem?_eq_some_iff.mp hj).1
  have hil : i < l.length := (List.getElem?_eq_some_iff.mp hi).1
  exact ⟨i, j, hij, by rw [List.getElem?_append_left hil]; exact hi,
    by rw [List.getElem?_append_left hjl]; exact hj⟩

/-- Appending a new element puts it after every existing member. -/
theorem Before.concat (l : List String) (d a : String) (h : d ∈ l) :
    Before (l ++ [a]) d a := by
  obtain ⟨i, hi⟩ := List.getElem_of_mem h
  have hi' : l[i]? = some d := Eq.symm (List.some_eq_getElem?_iff.mpr hi)
  have hil : i < l.length := (List.getElem?_eq_some_iff.mp hi').1
  refine ⟨i, l.length, hil, ?_, by simp⟩
  rw [List.getElem?_append_left hil]
  exact hi'

/-- Walking a stack whose adjacent frames are edges yields a transitive
dependency path from any lower frame to the top frame. -/
theorem chain'_transGen_head (Edge : String → String → Prop) :
    ∀ (l : List Frame) (f : Frame),
      List.Chain' (fun a b => Edge b.1 a.1) (f :: l) →
      ∀ q ∈ l, Relation.TransGen Edge q.1 f.1 := by
  intro l
  induction l with
  | nil =>
    intro f _ q hq
    simp at hq
  | cons g l' ih =>
    intro f h q hq
    have hR : Edge g.1 f.1 := (List.chain'_cons.mp h).1
    have hch : List.Chain' _ (g :: l') := (List.chain'_cons.mp h).2
    rcases List.mem_cons.mp hq with rfl | hq
    · exact Relation.TransGen.single hR
    · exact (ih g hch q hq).trans (Relation.TransGen.single hR)

/-- The composite invariant of the resolver run used for topological
validity: stack and output paths are visited; every visited existing path is
accounted for (output or stack); cursors are tails of their dependency lists
with the consumed prefix visited; adjacent stack frames are dependency
edges; and the output is topologically ordered so far. -/
structure TopoInv (ex : String → Bool) (depsOf : String → Option (List String)) (s : RS) :
    Prop where
  stack_vis : ∀ q ∈ s.stack, (q : Frame).1 ∈ s.visited
  out_vis : ∀ p ∈ s.out, p ∈ s.visited
  vis_loc : ∀ p ∈ s.visited, ex p = true → p ∈ s.out ∨ p ∈ s.stackPaths
  cursor_vis : ∀ p ds, (p, some ds) ∈ s.stack →
    ∃ ds₀ pre, depsOf p = some ds₀ ∧ ds₀ = pre ++ ds ∧ ∀ x ∈ pre, x ∈ s.visited
  chain : List.Chain' (fun f g : Frame => f.1 ∈ (depsOf g.1).getD []) s.stack
  ordered : ∀ a ∈ s.out, ∀ ds₀, depsOf a = some ds₀ →
    ∀ x ∈ ds₀, ex x = true → Before s.out x a

/-- `TopoInv` is preserved by every continuing step of an acyclic instance. -/
theorem topoInv_step (ex : String → Bool) (depsOf : String → Option (List String))
    (hAcyc : ∀ x, ¬ Relation.TransGen (fun u v => v ∈ (depsOf u).getD []) x x)
    (s s' : RS) (hinv : TopoInv ex depsOf s) (h : step ex depsOf s = .cont s') :
    TopoInv ex depsOf s' := by
  rcases step_cases ex depsOf s s' h with
    ⟨p, rest, hst, hexp, hs'⟩ | ⟨p, rest, ds, hcase, hs'⟩
  · -- pop of a nonexistent unexpanded frame
    have hS : s'.stack = rest := by rw [hs']
    have hV : s'.visited = s.visited := by rw [hs']
    have hO : s'.out = s.out := by rw [hs']
    refine ⟨?_, ?_, ?_, ?_, ?_, ?_⟩
    · intro q hq
      rw [hS] at hq
      rw [hV]
      exact hinv.stack_vis q (by rw [hst]; exact List.mem_cons_of_mem _ hq)
    · intro q hq
      rw [hO] at hq
      rw [hV]
      exact hinv.out_vis q hq
    · intro q hq hex'
      rw [hV] at hq
      rcases hinv.vis_loc q hq hex' with h1 | h1
      · left
        rw [hO]
        exact h1
      · rw [RS.stackPaths, hst] at h1
        simp only [List.map_cons, List.mem_cons] at h1
        rcases h1 with rfl | h1
        · rw [hexp] at hex'
          cases hex'
        · right
          rw [RS.stackPaths, hS]
          exact h1
    · intro q qs hq
      rw [hS] at hq
      obtain ⟨ds₀, pre, hdep, heq, hpre⟩ :=
        hinv.cursor_vis q qs (by rw [hst]; exact List.mem_cons_of_mem _ hq)
      exact ⟨ds₀, pre, hdep, heq, fun x hx => by rw [hV]; exact hpre x hx⟩
    · rw [hS]
      have hc := hinv.chain
      rw [hst] at hc
      exact hc.tail
    · intro a ha ds₁ hdep₁ x hx hex'
      rw [hO] at ha ⊢
      exact hinv.ordered a ha ds₁ hdep₁ x hx hex'
  · -- an advance step on frame (p, cur)
    have hds : ∃ ds₀ pre₀, depsOf p = some ds₀ ∧ ds₀ = pre₀ ++ ds
        ∧ ∀ x ∈ pre₀, x ∈ s.visited := by
      rcases hcase with ⟨-, -, hdepP⟩ | hst
      · exact ⟨ds, [], hdepP, rfl, by simp⟩
      · exact hinv.cursor_vis p ds (by rw [hst]; exact List.mem_cons_self _ _)
    obtain ⟨ds₀, pre₀, hdep, hpre₀, hprevis⟩ := hds
    have hstk : ∃ cur, s.stack = (p, cur) :: rest := by
      rcases hcase with ⟨hst, -, -⟩ | hst
      · exact ⟨none, hst⟩
      · exact ⟨some ds, hst⟩
    obtain ⟨cur, hst⟩ := hstk
    have hpvis : p ∈ s.visited :=
      hinv.stack_vis (p, cur) (by rw [hst]; exact List.mem_cons_self _ _)
    obtain ⟨dpre, hdD, hdprop⟩ := dropWhile_decomp (fun d => s.visited.contains d) ds
    have hdprevis : ∀ x ∈ dpre, x ∈ s.visited := by
      intro x hx
      have := hdprop x hx
      simpa using this
    rcases advance_cases p ds rest s with
      ⟨hdw, hadv⟩ | ⟨d, ds', hdw, hdnv, ⟨hon, hadv⟩ | ⟨hon, hadv⟩⟩
    · -- StopIteration: pop the frame and append its path
      have hS : s'.stack = rest := by rw [hs', hadv]
      have hV : s'.visited = s.visited := by rw [hs', hadv]
      have hO : s'.out = s.out ++ [p] := by rw [hs', hadv]
      have hdsvis : ∀ x ∈ ds, x ∈ s.visited := by
        intro x hx
        rw [hdD, hdw, List.append_nil] at hx
        exact hdprevis x hx
      have hds₀vis : ∀ x ∈ ds₀, x ∈ s.visited := by
        intro x hx
        rw [hpre₀] at hx
        rcases List.mem_append.mp hx with h1 | h1
        · exact hprevis x h1
        · exact hdsvis x h1
      refine ⟨?_, ?_, ?_, ?_, ?_, ?_⟩
      · intro q hq
        rw [hS] at hq
        rw [hV]
        exact hinv.stack_vis q (by rw [hst]; exact List.mem_cons_of_mem _ hq)
      · intro q hq
        rw [hO] at hq
        rw [hV]
        rcases List.mem_append.mp hq with h1 | h1
        · exact hinv.out_vis q h1
        · rw [List.mem_singleton.mp h1]
          exact hpvis
      · intro q hq hex'
        rw [hV] at hq
        rcases hinv.vis_loc q hq hex' with h1 | h1
        · left
          rw [hO]
          exact List.mem_append_left _ h1
        · rw [RS.stackPaths, hst] at h1
          simp only [List.map_cons, List.mem_cons] at h1
          rcases h1 with rfl | h1
          · left
            rw [hO]
            exact List.mem_append_right _ (List.mem_singleton.mpr rfl)
          · right
            rw [RS.stackPaths, hS]
            exact h1
      · intro q qs hq
        rw [hS] at hq
        obtain ⟨ds₁, pre, hdep₁, heq, hpre⟩ :=
          hinv.cursor_vis q qs (by rw [hst]; exact List.mem_cons_of_mem _ hq)
        exact ⟨ds₁, pre, hdep₁, heq, fun x hx => by rw [hV]; exact hpre x hx⟩
      · rw [hS]
        have hc := hinv.chain
        rw [hst] at hc
        exact hc.tail
      · intro a ha ds₁ hdep₁ x hx hex'
        rw [hO] at ha ⊢
        rcases List.mem_append.mp ha with haO | haP
        · exact (hinv.ordered a haO ds₁ hdep₁ x hx hex').append _ _
        · -- the newly appended file: all its dependencies are finalized
          obtain rfl : a = p := List.mem_singleton.mp haP
          obtain rfl : ds₁ = ds₀ := by
            rw [hdep] at hdep₁
            injection hdep₁ with e
            exact e.symm
          have hxvis : x ∈ s.visited := hds₀vis x hx
          rcases hinv.vis_loc x hxvis hex' with h1 | h1
          · exact Before.concat _ _ _ h1
          · exfalso
            rw [RS.stackPaths, hst] at h1
            simp only [List.map_cons, List.mem_cons] at h1
            have hedge : x ∈ (depsOf a).getD [] := by
              rw [hdep]
              exact hx
            rcases h1 with rfl | h1
            · exact hAcyc x (Relation.TransGen.single hedge)
            · obtain ⟨q, hqmem, hq1⟩ := List.mem_map.mp h1
              have hc := hinv.chain
              rw [hst] at hc
              have := chain'_transGen_head (fun u v => v ∈ (depsOf u).getD []) rest (a, cur) hc q hqmem
              rw [hq1] at this
              exact hAcyc a (Relation.TransGen.head hedge this)
    · -- the circular-dependency branch is unreachable: the target is on the
      -- stack, hence visited, yet survived the visited filter
      exfalso
      have hdmem : d ∈ s.stackPaths := by
        rw [RS.stackPaths, hst]
        simpa using hon
      obtain ⟨q, hqmem, hq1⟩ := List.mem_map.mp hdmem
      have : d ∈ s.visited := by
        rw [← hq1]
        exact hinv.stack_vis q hqmem
      have : s.visited.contains d = true := by simpa using this
      rw [this] at hdnv
      cases hdnv
    · -- push the fresh target
      have hS : s'.stack = (d, none) :: (p, some ds') :: rest := by rw [hs', hadv]
      have hV : s'.visited = d :: s.visited := by rw [hs', hadv]
      have hO : s'.out = s.out := by rw [hs', hadv]
      have hdds : d ∈ ds := by
        rw [hdD, hdw]
        exact List.mem_append_right _ (List.mem_cons_self _ _)
      have hdds₀ : d ∈ ds₀ := by
        rw [hpre₀]
        exact List.mem_append_right _ hdds
      refine ⟨?_, ?_, ?_, ?_, ?_, ?_⟩
      · intro q hq
        rw [hS] at hq
        rw [hV]
        rcases List.mem_cons.mp hq with rfl | hq
        · exact List.mem_cons_self _ _
        · rcases List.mem_cons.mp hq with rfl | hq
          · exact List.mem_cons_of_mem _ hpvis
          · exact List.mem_cons_of_mem _
              (hinv.stack_vis q (by rw [hst]; exact List.mem_cons_of_mem _ hq))
      · intro q hq
        rw [hO] at hq
        rw [hV]
        exact List.mem_cons_of_mem _ (hinv.out_vis q hq)
      · intro q hq hex'
        rw [hV] at hq
        rcases List.mem_cons.mp hq with rfl | hq
        · right
          rw [RS.stackPaths, hS]
          simp
        · rcases hinv.vis_loc q hq hex' with h1 | h1
          · left
            rw [hO]
            exact h1
          · right
            rw [RS.stackPaths, hS]
            rw [RS.stackPaths, hst] at h1
            simp only [List.map_cons, List.mem_cons] at h1 ⊢
            tauto
      · intro q qs hq
        rw [hS] at hq
        rcases List.mem_cons.mp hq with heq | hq
        · exfalso
          injection heq with e1 e2
          cases e2
        · rcases List.mem_cons.mp hq with heq | hq
          · injection heq with e1 e2
            injection e2 with e3
            subst e1
            refine ⟨ds₀, pre₀ ++ (dpre ++ [d]), hdep, ?_, ?_⟩
            · rw [hpre₀, hdD, hdw, ← e3]
              simp
            · intro x hx
              rw [hV]
              rcases List.mem_append.mp hx with h1 | h1
              · exact List.mem_cons_of_mem _ (hprevis x h1)
              · rcases List.mem_append.mp h1 with h2 | h2
                · exact List.mem_cons_of_mem _ (hdprevis x h2)
                · rw [List.mem_singleton.mp h2]
                  exact List.mem_cons_self _ _
          · obtain ⟨ds₁, pre, hdep₁, heq, hpre⟩ :=
              hinv.cursor_vis q qs (by rw [hst]; exact List.mem_cons_of_mem _ hq)
            exact ⟨ds₁, pre, hdep₁, heq,
              fun x hx => by rw [hV]; exact List.mem_cons_of_mem _ (hpre x hx)⟩
      · rw [hS]
        have hedge : d ∈ (depsOf p).getD [] := by
          rw [hdep]
          exact hdds₀
        have hc := hinv.chain
        rw [hst] at hc
        cases rest with
        | nil =>
          exact List.chain'_cons.mpr ⟨hedge, List.chain'_singleton _⟩
        | cons g rest' =>
          have h1 : (p, cur).1 ∈ (depsOf g.1).getD [] := (List.chain'_cons.mp hc).1
          exact List.chain'_cons.mpr ⟨hedge,
            List.chain'_cons.mpr ⟨h1, (List.chain'_cons.mp hc).2⟩⟩
      · intro a ha ds₁ hdep₁ x hx hex'
        rw [hO] at ha ⊢
        exact hinv.ordered a ha ds₁ hdep₁ x hx hex'

/-- `step` reports `done` only from an empty stack, returning the state's
output and warning count. -/
theorem step_done (ex : String → Bool) (depsOf : String → Option (List String)) (s : RS)
    (o : List String) (w : Nat) (h : step ex depsOf s = .done o w) :
    s.stack = [] ∧ o = s.out ∧ w = s.warn := by
  cases hst : s.stack with
  | nil =>
    simp only [step, hst] at h
    injection h with h1 h2
    exact ⟨rfl, h1.symm, h2.symm⟩
  | cons f rest =>
    obtain ⟨p, cur⟩ := f
    cases cur with
    | none =>
      by_cases hexp : ex p = true
      · cases hdep : depsOf p with
        | none => simp [step, hst, hexp, hdep] at h
        | some ds => simp [step, hst, hexp, hdep] at h
      · simp [step, hst, hexp] at h
    | some ds => simp [step, hst] at h

/-- The initial state satisfies the topological invariant. -/
theorem topoInv_init (ex : String → Bool) (depsOf : String → Option (List String))
    (top : String) : TopoInv ex depsOf (initRS top) := by
  refine ⟨?_, ?_, ?_, ?_, ?_, ?_⟩
  · intro q hq
    simp only [initRS, List.mem_singleton] at hq
    subst hq
    simp [initRS]
  · intro q hq
    simp [initRS] at hq
  · intro q hq hex'
    simp only [initRS, List.mem_singleton] at hq
    subst hq
    right
    simp [initRS, RS.stackPaths]
  · intro q qs hq
    simp [initRS] at hq
  · simp [initRS]
  · intro a ha
    simp [initRS] at ha

/-- Any completed non-crashing run from a `TopoInv` state produces a
topologically ordered output. -/
theorem run_ok_ordered (ex : String → Bool) (depsOf : String → Option (List String))
    (hAcyc : ∀ x, ¬ Relation.TransGen (fun u v => v ∈ (depsOf u).getD []) x x) :
    ∀ (n : Nat) (s : RS) (out : List String) (warn : Nat), TopoInv ex depsOf s →
      run ex depsOf n s = some (.ok out warn) →
      ∀ a ∈ out, ∀ ds₀, depsOf a = some ds₀ → ∀ x ∈ ds₀, ex x = true →
        Before out x a := by
  intro n
  induction n with
  | zero => intro s out warn _ hrun; cases hrun
  | succ m ih =>
    intro s out warn hinv hrun
    rw [run] at hrun
    cases hstep : step ex depsOf s with
    | done o w =>
      rw [hstep] at hrun
      obtain ⟨rfl, -⟩ : o = out ∧ w = warn := by
        injection hrun with h'
        constructor <;> injection h'
      obtain ⟨-, rfl, -⟩ := step_done ex depsOf s o w hstep
      exact hinv.ordered
    | crash => rw [hstep] at hrun; cases hrun
    | cont s' =>
      rw [hstep] at hrun
      exact ih s' out warn (topoInv_step ex depsOf hAcyc s s' hinv hstep) hrun

/-- C5: for an acyclic dependency graph, the file order produced by
`resolve_dependency_tree` is topologically valid: in every completed
non-crashing run, each resolved, on-disk dependency `x` of an emitted file
`a` occupies a strictly earlier output position than `a`, because a file is
appended only after all of its dependencies have been finalized. -/
theorem c5_topological_validity (ex : String → Bool)
    (depsOf : String → Option (List String)) (top : String)
    (hAcyc : ∀ x, ¬ Relation.TransGen (fun u v => v ∈ (depsOf u).getD []) x x)
    (n : Nat) (out : List String) (warn : Nat)
    (hrun : run ex depsOf n (initRS top) = some (.ok out warn)) :
    ∀ a ∈ out, ∀ ds₀, depsOf a = some ds₀ → ∀ x ∈ ds₀, ex x = true →
      Before out x a :=
  run_ok_ordered ex depsOf hAcyc n _ out warn (topoInv_init ex depsOf top) hrun

/-- A ranking function decreasing along edges certifies acyclicity. -/
theorem acyclic_of_rank (depsOf : String → Option (List String)) (rank : String → Nat)
    (hr : ∀ u v, v ∈ (depsOf u).getD [] → rank v < rank u) :
    ∀ x, ¬ Relation.TransGen (fun u v => v ∈ (depsOf u).getD []) x x := by
  intro x hx
  have key : ∀ a b, Relation.TransGen (fun u v => v ∈ (depsOf u).getD []) a b →
      rank b < rank a := by
    intro a b hab
    induction hab with
    | single h1 => exact hr _ _ h1
    | tail hab h1 ih => exact Nat.lt_trans (hr _ _ h1) ih
  exact absurd (key x x hx) (Nat.lt_irrefl _)

/-- A two-file demonstration edge function: the top file depends on one
leaf. -/
def depsDemo (p : String) : Option (List String) :=
  if p = "/t.vhd" then some ["/a.vhd"] else some []

/-- A ranking function certifying acyclicity of `depsDemo`. -/
def rankDemo (p : String) : Nat := if p = "/t.vhd" then 1 else 0

/-- Witness for C5: on the concrete acyclic two-file instance, the
dependency `/a.vhd` of the emitted top file occupies an earlier position. -/
theorem c5_topological_validity_witness :
    Before ["/a.vhd", "/t.vhd"] "/a.vhd" "/t.vhd" :=
  c5_topological_validity (fun _ => true) depsDemo "/t.vhd"
    (acyclic_of_rank depsDemo rankDemo (by
      intro u v hv
      unfold depsDemo at hv
      by_cases hu : u = "/t.vhd"
      · rw [if_pos hu] at hv
        simp only [Option.getD_some, List.mem_singleton] at hv
        rw [hv, hu]
        decide
      · rw [if_neg hu] at hv
        simp at hv))
    6 ["/a.vhd", "/t.vhd"] 0 (by decide)
    "/t.vhd" (by decide) ["/a.vhd"] (by decide) "/a.vhd" (by decide) rfl

/-! ## Library-Order Resolver (the library part of `generate_python_dict`) -/

/-- `defaultdict(list)` append: add `val` to the bucket of `key`, creating
the bucket at the end on first touch (Python dict iteration order). -/
def appendAt (key val : String) : List (String × List String) →
    List (String × List String)
  | [] => [(key, [val])]
  | (k, vs) :: rest =>
    if k = key then (k, vs ++ [val]) :: rest else (k, vs) :: appendAt key val rest

/-- Update the bucket of `key` in place (`lib_graph[source_lib].add(...)`);
the key is always present when the source executes this line. -/
def updateAt (key : String) (f : List String → List String) :
    List (String × List String) → List (String × List String)
  | [] => []
  | (k, vs) :: rest =>
    if k = key then (k, f vs) :: rest else (k, vs) :: updateAt key f rest

/-- Step 1 of `generate_python_dict`: group the ordered files by library,
skipping include files. -/
def sources_by_lib (file_to_lib_map : List (String × String)) (default_lib : String)
    (include_files : List String) (files_ordered : List String) :
    List (String × List String) :=
  files_ordered.foldl
    (fun acc p =>
      if include_files.contains p then acc
      else appendAt ((List.lookup p file_to_lib_map).getD default_lib) p acc)
    []

/-- Step 2 of `generate_python_dict`: build the library dependency graph by
re-deriving every file's direct dependencies; an edge is inserted only when
the endpoint files' libraries differ.  `none` propagates an exception raised
by `find_dependencies_in_file`. -/
def build_lib_graph (env : Env) (unit_map : UnitMap) (default_lib : String)
    (file_to_lib_map : List (String × String)) (slib : List (String × List String)) :
    Option (List (String × List String)) :=
  let lib_graph₀ := slib.map fun e => (e.1, ([] : List String))
  let all_source_files := slib.flatMap fun e => e.2
  all_source_files.foldlM
    (fun g f =>
      let source_lib := (List.lookup f file_to_lib_map).getD default_lib
      match find_dependencies_in_file env unit_map default_lib f with
      | none => none
      | some r =>
        some (r.deps.foldl
          (fun g' dep =>
            let dep_lib := (List.lookup dep file_to_lib_map).getD default_lib
            if source_lib ≠ dep_lib then updateAt source_lib (addToSet dep_lib) g'
            else g')
          g))
    lib_graph₀

/-- The `while queue:` loop of Kahn's algorithm in `generate_python_dict`:
pop a node, append it to the order, remove it from every dependency set, and
enqueue (in graph iteration order) the nodes whose sets just emptied. -/
def kahnLoop : Nat → List (String × List String) → List String → List String →
    Option (List String)
  | 0, _, _, _ => none
  | _ + 1, _, [], sorted => some sorted
  | n + 1, g, q :: qs, sorted =>
    let updated := g.map fun e => if e.2.contains q then (e.1, e.2.erase q) else e
    let newly := (g.filter fun e => e.2.contains q && (e.2.erase q).isEmpty).map fun e => e.1
    kahnLoop n updated (qs ++ newly) (sorted ++ [q])

/-- Step 3 of `generate_python_dict`: run Kahn's algorithm from the nodes
with no dependencies and fall back to insertion order when fewer libraries
were emitted than exist (library-level cycle). -/
def sort_libraries (g : List (String × List String)) (fuel : Nat) :
    Option (List String) :=
  match kahnLoop fuel g ((g.filter fun e => e.2.isEmpty).map fun e => e.1) [] with
  | none => none
  | some sorted =>
    some (if sorted.length ≠ g.length then g.map fun e => e.1 else sorted)

/-- A graph with no self-edges. -/
def SelfFree (g : List (String × List String)) : Prop := ∀ e ∈ g, e.1 ∉ e.2

/-- Every entry after `updateAt` is either an original entry or the updated
bucket of `key`. -/
theorem updateAt_mem (key : String) (f : List String → List String)
    (g : List (String × List String)) :
    ∀ e ∈ updateAt key f g, e ∈ g ∨ ∃ vs, (key, vs) ∈ g ∧ e = (key, f vs) := by
  induction g with
  | nil => intro e he; simp [updateAt] at he
  | cons x g' ih =>
    intro e he
    obtain ⟨k, vs⟩ := x
    by_cases hk : k = key
    · simp only [updateAt, if_pos hk] at he
      rcases List.mem_cons.mp he with rfl | he
      · right
        exact ⟨vs, by rw [hk]; exact List.mem_cons_self _ _, by rw [hk]⟩
      · left
        exact List.mem_cons_of_mem _ he
    · simp only [updateAt, if_neg hk] at he
      rcases List.mem_cons.mp he with rfl | he
      · left
        exact List.mem_cons_self _ _
      · rcases ih e he with h | ⟨vs', h1, h2⟩
        · left
          exact List.mem_cons_of_mem _ h
        · right
          exact ⟨vs', List.mem_cons_of_mem _ h1, h2⟩

/-- The guarded edge insertion never creates a self-edge. -/
theorem selfFree_update (g : List (String × List String)) (hg : SelfFree g)
    (src dep : String) (hne : src ≠ dep) :
    SelfFree (updateAt src (addToSet dep) g) := by
  intro e he
  rcases updateAt_mem src (addToSet dep) g e he with h | ⟨vs, h1, rfl⟩
  · exact hg e h
  · have h0 : src ∉ vs := hg (src, vs) h1
    show src ∉ addToSet dep vs
    unfold addToSet
    by_cases hc : vs.contains dep = true
    · rw [if_pos hc]
      exact h0
    · rw [if_neg (by simpa using hc)]
      intro hmem
      rcases List.mem_append.mp hmem with h2 | h2
      · exact h0 h2
      · exact hne (List.mem_singleton.mp h2)

/-- The per-file inner edge loop preserves self-edge freedom. -/
theorem selfFree_inner (src_lib : String) (file_to_lib_map : List (String × String))
    (default_lib : String) (deps : List String) :
    ∀ g, SelfFree g →
      SelfFree (deps.foldl
        (fun g' dep =>
          let dep_lib := (List.lookup dep file_to_lib_map).getD default_lib
          if src_lib ≠ dep_lib then updateAt src_lib (addToSet dep_lib) g' else g')
        g) := by
  induction deps with
  | nil => intro g hg; exact hg
  | cons d ds ih =>
    intro g hg
    rw [List.foldl_cons]
    apply ih
    by_cases hne : src_lib ≠ (List.lookup d file_to_lib_map).getD default_lib
    · simp only [if_pos hne]
      exact selfFree_update g hg _ _ hne
    · simp only [if_neg hne]
      exact hg

/-- C9 part (a) helper: the whole graph-building fold preserves self-edge
freedom. -/
theorem selfFree_build (env : Env) (unit_map : UnitMap) (default_lib : String)
    (file_to_lib_map : List (String × String)) :
    ∀ (files : List String) (g res : List (String × List String)), SelfFree g →
      files.foldlM
        (fun g f =>
          let source_lib := (List.lookup f file_to_lib_map).getD default_lib
          match find_dependencies_in_file env unit_map default_lib f with
          | none => none
          | some r =>
            some (r.deps.foldl
              (fun g' dep =>
                let dep_lib := (List.lookup dep file_to_lib_map).getD default_lib
                if source_lib ≠ dep_lib then updateAt source_lib (addToSet dep_lib) g'
                else g')
              g))
        g = some res → SelfFree res := by
  intro files
  induction files with
  | nil =>
    intro g res hg h
    injection h with h'
    rw [← h']
    exact hg
  | cons f fs ih =>
    intro g res hg h
    rw [List.foldlM_cons] at h
    cases hdep : find_dependencies_in_file env unit_map default_lib f with
    | none => rw [hdep] at h; cases h
    | some r =>
      rw [hdep] at h
      exact ih _ res (selfFree_inner _ file_to_lib_map default_lib r.deps g hg) h

/-- Removing a dequeued node from a pending dependency set equals filtering
against the extended emitted list. -/
theorem filter_step_kahn (l : List String) (hnd : l.Nodup) (S : List String) (q : String) :
    (if (l.filter fun x => !(S.contains x)).contains q
      then (l.filter fun x => !(S.contains x)).erase q
      else l.filter fun x => !(S.contains x))
    = l.filter fun x => !((S ++ [q]).contains x) := by
  by_cases hq : (l.filter fun x => !(S.contains x)).contains q = true
  · rw [if_pos hq]
    have hnd' : (l.filter fun x => !(S.contains x)).Nodup := hnd.filter _
    rw [hnd'.erase_eq_filter q, List.filter_filter]
    apply List.filter_congr
    intro x hx
    by_cases hSx : S.contains x = true
    · have hmem : x ∈ S := by simpa using hSx
      simp [hmem]
    · have hmem : x ∉ S := by simpa using hSx
      by_cases hxq : x = q
      · subst hxq
        simp [hmem]
      · simp [hmem, hxq]
  · rw [if_neg hq]
    apply List.filter_congr
    intro x hx
    by_cases hSx : S.contains x = true
    · have hmem : x ∈ S := by simpa using hSx
      simp [hmem]
    · have hmem : x ∉ S := by simpa using hSx
      have hxq : x ≠ q := by
        intro hxq
        subst hxq
        exact hq (by
          have : x ∈ l.filter fun y => !(S.contains y) :=
            List.mem_filter.mpr ⟨hx, by simpa using hmem⟩
          simpa using this)
      simp [hmem, hxq]

/-- Subset-style acyclicity of a graph: every nonempty list of nodes
contains one with no dependency inside the list. -/
def KAcyclic (g : List (String × List String)) : Prop :=
  ∀ R : List String, R ≠ [] → (∀ x ∈ R, x ∈ (g.map fun e => e.1)) →
    ∃ n ∈ R, ∀ ds, (n, ds) ∈ g → ∀ q ∈ ds, q ∉ R

/-- The loop invariant of Kahn's algorithm, over the original graph `g₀`. -/
structure KInv (g₀ cur : List (String × List String)) (queue sorted : List String) :
    Prop where
  cur_eq : cur = g₀.map fun e => (e.1, e.2.filter fun x => !(sorted.contains x))
  q_keys : ∀ x ∈ queue, x ∈ (g₀.map fun e => e.1)
  s_keys : ∀ x ∈ sorted, x ∈ (g₀.map fun e => e.1)
  nd : (sorted ++ queue).Nodup
  q_ready : ∀ x ∈ queue, ∀ ds, (x, ds) ∈ g₀ →
    ds.filter (fun y => !(sorted.contains y)) = []
  pending : ∀ P ds, (P, ds) ∈ g₀ → P ∉ sorted → P ∉ queue →
    ds.filter (fun y => !(sorted.contains y)) ≠ []
  ordered : ∀ P ∈ sorted, ∀ ds, (P, ds) ∈ g₀ → ∀ Q ∈ ds, Before sorted Q P

/-- An earlier occurrence is in particular a member. -/
theorem Before.mem_left (l : List String) (d a : String) (h : Before l d a) : d ∈ l := by
  obtain ⟨i, -, -, hi, -⟩ := h
  obtain ⟨hlt, rfl⟩ := List.getElem?_eq_some_iff.mp hi
  exact List.getElem_mem hlt

/-- In an association list with distinct keys, values are functional. -/
theorem assoc_functional (l : List (String × List String))
    (hnd : (l.map fun e => e.1).Nodup) (a : String) (b c : List String)
    (hb : (a, b) ∈ l) (hc : (a, c) ∈ l) : b = c := by
  induction l with
  | nil => simp at hb
  | cons e l' ih =>
    have hnd' : (l'.map fun e => e.1).Nodup := (List.nodup_cons.mp hnd).2
    have hhead : e.1 ∉ l'.map fun e => e.1 := (List.nodup_cons.mp hnd).1
    rcases List.mem_cons.mp hb with rfl | hb'
    · rcases List.mem_cons.mp hc with heq | hc'
      · exact (Prod.ext_iff.mp heq.symm).2
      · exfalso
        exact hhead (List.mem_map.mpr ⟨(a, c), hc', rfl⟩)
    · rcases List.mem_cons.mp hc with rfl | hc'
      · exfalso
        exact hhead (List.mem_map.mpr ⟨(a, b), hb', rfl⟩)
      · exact ih hnd' hb' hc'

/-- A nonempty filter exhibits a member satisfying the predicate. -/
theorem exists_of_filter_ne_nil {α : Type} (l : List α) (p : α → Bool)
    (h : l.filter p ≠ []) : ∃ a ∈ l, p a = true := by
  cases hf : l.filter p with
  | nil => exact absurd hf h
  | cons x xs =>
    have hx : x ∈ l.filter p := by rw [hf]; exact List.mem_cons_self _ _
    exact ⟨x, (List.mem_filter.mp hx).1, (List.mem_filter.mp hx).2⟩

/-- One iteration of Kahn's loop preserves the invariant. -/
theorem kInv_step (g₀ cur : List (String × List String)) (q : String)
    (qs sorted : List String)
    (hDnd : ∀ e ∈ g₀, (e : String × List String).2.Nodup)
    (hKnd : (g₀.map fun e => e.1).Nodup)
    (hinv : KInv g₀ cur (q :: qs) sorted) :
    KInv g₀ (cur.map fun e => if e.2.contains q then (e.1, e.2.erase q) else e)
      (qs ++ ((cur.filter fun e => e.2.contains q && (e.2.erase q).isEmpty).map
        fun e => e.1))
      (sorted ++ [q]) := by
  have hqKey : q ∈ (g₀.map fun e => e.1) := hinv.q_keys q (List.mem_cons_self _ _)
  have hndparts := List.nodup_append.mp hinv.nd
  have hsNd : sorted.Nodup := hndparts.1
  have hqqsNd : (q :: qs).Nodup := hndparts.2.1
  have hdisj : sorted.Disjoint (q :: qs) := hndparts.2.2
  have hqNotS : q ∉ sorted := fun hmem => hdisj hmem (List.mem_cons_self _ _)
  have hqNotQs : q ∉ qs := (List.nodup_cons.mp hqqsNd).1
  have hqsNd : qs.Nodup := (List.nodup_cons.mp hqqsNd).2
  have hCurElem : ∀ e ∈ cur, ∃ e₀, e₀ ∈ g₀
      ∧ e = (e₀.1, e₀.2.filter fun x => !(sorted.contains x)) := by
    intro e he
    rw [hinv.cur_eq] at he
    obtain ⟨e₀, he₀, heq⟩ := List.mem_map.mp he
    exact ⟨e₀, he₀, heq.symm⟩
  have hSortedDone : ∀ P ∈ sorted, ∀ ds, (P, ds) ∈ g₀ →
      ds.filter (fun y => !(sorted.contains y)) = [] := by
    intro P hP ds hds
    rw [List.filter_eq_nil_iff]
    intro y hy
    have hB := hinv.ordered P hP ds hds y hy
    have hmem := Before.mem_left sorted y P hB
    simp [hmem]
  have hNewly : ∀ x,
      x ∈ ((cur.filter fun e => e.2.contains q && (e.2.erase q).isEmpty).map
        fun e => e.1) →
      ∃ ds₀, (x, ds₀) ∈ g₀
        ∧ (ds₀.filter fun y => !(sorted.contains y)).contains q = true
        ∧ (ds₀.filter fun y => !(sorted.contains y)).erase q = [] := by
    intro x hx
    obtain ⟨e, hef, hex⟩ := List.mem_map.mp hx
    have hec := List.mem_filter.mp hef
    obtain ⟨e₀, he₀, rfl⟩ := hCurElem e hec.1
    have hx1 : x = e₀.1 := hex.symm
    subst hx1
    have hpair : (e₀.1, e₀.2) = e₀ := rfl
    have hconds : (e₀.2.filter fun x => !(sorted.contains x)).contains q = true
        ∧ ((e₀.2.filter fun x => !(sorted.contains x)).erase q).isEmpty = true := by
      have := hec.2
      rw [Bool.and_eq_true] at this
      exact this
    refine ⟨e₀.2, by rw [hpair]; exact he₀, hconds.1, ?_⟩
    exact List.isEmpty_iff.mp hconds.2
  have hNewNotQueue : ∀ x,
      x ∈ ((cur.filter fun e => e.2.contains q && (e.2.erase q).isEmpty).map
        fun e => e.1) → x ∉ q :: qs := by
    intro x hx hxq
    obtain ⟨ds₀, hds₀, hcont, -⟩ := hNewly x hx
    have := hinv.q_ready x hxq ds₀ hds₀
    rw [this] at hcont
    cases hcont
  have hNewNotSorted : ∀ x,
      x ∈ ((cur.filter fun e => e.2.contains q && (e.2.erase q).isEmpty).map
        fun e => e.1) → x ∉ sorted := by
    intro x hx hxmem
    obtain ⟨ds₀, hds₀, hcont, -⟩ := hNewly x hx
    have := hSortedDone x hxmem ds₀ hds₀
    rw [this] at hcont
    cases hcont
  have hNewNd :
      ((cur.filter fun e => e.2.contains q && (e.2.erase q).isEmpty).map
        fun e => e.1).Nodup := by
    have hCurFst : (cur.map fun e => e.1) = (g₀.map fun e => e.1) := by
      rw [hinv.cur_eq, List.map_map]
      rfl
    have hsub : ((cur.filter fun e => e.2.contains q && (e.2.erase q).isEmpty).map
        fun e => e.1).Sublist (cur.map fun e => e.1) :=
      (List.filter_sublist cur).map _
    rw [hCurFst] at hsub
    exact hKnd.sublist hsub
  refine ⟨?_, ?_, ?_, ?_, ?_, ?_, ?_⟩
  · -- cur_eq
    rw [hinv.cur_eq, List.map_map]
    apply List.map_congr_left
    intro e he
    show (if (e.2.filter fun x => !(sorted.contains x)).contains q
        then (e.1, (e.2.filter fun x => !(sorted.contains x)).erase q)
        else (e.1, e.2.filter fun x => !(sorted.contains x)))
      = (e.1, e.2.filter fun x => !((sorted ++ [q]).contains x))
    have hfs := filter_step_kahn e.2 (hDnd e he) sorted q
    by_cases hc : (e.2.filter fun x => !(sorted.contains x)).contains q = true
    · rw [if_pos hc]
      rw [if_pos hc] at hfs
      rw [hfs]
    · rw [if_neg hc]
      rw [if_neg hc] at hfs
      rw [hfs]
  · -- q_keys
    intro x hx
    rcases List.mem_append.mp hx with h1 | h1
    · exact hinv.q_keys x (List.mem_cons_of_mem _ h1)
    · obtain ⟨ds₀, hds₀, -, -⟩ := hNewly x h1
      exact List.mem_map.mpr ⟨(x, ds₀), hds₀, rfl⟩
  · -- s_keys
    intro x hx
    rcases List.mem_append.mp hx with h1 | h1
    · exact hinv.s_keys x h1
    · rw [List.mem_singleton.mp h1]
      exact hqKey
  · -- nd
    rw [List.nodup_append]
    refine ⟨?_, ?_, ?_⟩
    · rw [List.nodup_append]
      refine ⟨hsNd, List.nodup_singleton q, ?_⟩
      intro a ha hmem
      rw [List.mem_singleton.mp hmem] at ha
      exact hqNotS ha
    · rw [List.nodup_append]
      refine ⟨hqsNd, hNewNd, ?_⟩
      intro a ha hmem
      exact hNewNotQueue a hmem (List.mem_cons_of_mem _ ha)
    · intro a ha hmem
      rcases List.mem_append.mp ha with h1 | h1
      · rcases List.mem_append.mp hmem with h2 | h2
        · exact hdisj h1 (List.mem_cons_of_mem _ h2)
        · exact hNewNotSorted a h2 h1
      · rw [List.mem_singleton.mp h1] at hmem
        rcases List.mem_append.mp hmem with h2 | h2
        · exact hqNotQs h2
        · exact hNewNotQueue q h2 (List.mem_cons_self _ _)
  · -- q_ready
    intro x hx ds hds
    rcases List.mem_append.mp hx with h1 | h1
    · have := hinv.q_ready x (List.mem_cons_of_mem _ h1) ds hds
      rw [List.filter_eq_nil_iff] at this ⊢
      intro y hy
      have h2 := this y hy
      have h3 : y ∈ sorted := by simpa using h2
      simp [h3]
    · obtain ⟨ds₀, hds₀, hcont, herase⟩ := hNewly x h1
      obtain rfl : ds = ds₀ := assoc_functional g₀ hKnd x ds ds₀ hds hds₀
      have hfs := filter_step_kahn ds (hDnd (x, ds) hds) sorted q
      rw [if_pos hcont] at hfs
      rw [← hfs]
      exact herase
  · -- pending
    intro P ds hds hPs hPq
    have hPnotS : P ∉ sorted := fun h => hPs (List.mem_append_left _ h)
    have hPnotq : P ≠ q := by
      intro h
      exact hPs (List.mem_append_right _ (by rw [h]; exact List.mem_singleton.mpr rfl))
    have hPnotqs : P ∉ qs := fun h => hPq (List.mem_append_left _ h)
    have hold := hinv.pending P ds hds hPnotS (by
      intro h
      rcases List.mem_cons.mp h with h1 | h1
      · exact hPnotq h1
      · exact hPnotqs h1)
    intro hnew
    have hfs := filter_step_kahn ds (hDnd (P, ds) hds) sorted q
    by_cases hc : (ds.filter fun x => !(sorted.contains x)).contains q = true
    · rw [if_pos hc] at hfs
      have herase : (ds.filter fun x => !(sorted.contains x)).erase q = [] := by
        rw [hfs]
        exact hnew
      have hPnew : P ∈ ((cur.filter fun e => e.2.contains q && (e.2.erase q).isEmpty).map
          fun e => e.1) := by
        have hmem : ((P, ds.filter fun x => !(sorted.contains x)) :
            String × List String) ∈ cur := by
          rw [hinv.cur_eq]
          exact List.mem_map.mpr ⟨(P, ds), hds, rfl⟩
        refine List.mem_map.mpr ⟨(P, ds.filter fun x => !(sorted.contains x)), ?_, rfl⟩
        refine List.mem_filter.mpr ⟨hmem, ?_⟩
        rw [Bool.and_eq_true]
        exact ⟨hc, by rw [List.isEmpty_iff]; exact herase⟩
      exact hPq (List.mem_append_right _ hPnew)
    · rw [if_neg hc] at hfs
      rw [hfs] at hold
      exact hold hnew
  · -- ordered
    intro P hP ds hds Q hQ
    rcases List.mem_append.mp hP with h1 | h1
    · exact (hinv.ordered P h1 ds hds Q hQ).append _ _
    · obtain rfl : P = q := List.mem_singleton.mp h1
      have hready := hinv.q_ready P (List.mem_cons_self _ _) ds hds
      rw [List.filter_eq_nil_iff] at hready
      have hQsorted : Q ∈ sorted := by
        have := hready Q hQ
        simpa using this
      exact Before.concat sorted Q P hQsorted

/-- The invariant holds at the entry of the loop: the queue is the set of
keys whose dependency bucket is empty and nothing is sorted yet. -/
theorem kInv_init (g₀ : List (String × List String))
    (hKnd : (g₀.map fun e => e.1).Nodup) :
    KInv g₀ g₀ ((g₀.filter fun e => e.2.isEmpty).map fun e => e.1) [] := by
  have hfilt : ∀ l : List String,
      (l.filter fun y => !(([] : List String).contains y)) = l := by
    intro l
    apply List.filter_eq_self.mpr
    intro a _
    rfl
  refine ⟨?_, ?_, ?_, ?_, ?_, ?_, ?_⟩
  · -- cur_eq
    conv_lhs => rw [← List.map_id g₀]
    apply List.map_congr_left
    intro e _
    rw [hfilt]
    rfl
  · intro x hx
    obtain ⟨e, hef, hex⟩ := List.mem_map.mp hx
    exact List.mem_map.mpr ⟨e, (List.mem_filter.mp hef).1, hex⟩
  · intro x hx
    cases hx
  · rw [List.nil_append]
    have hsub : ((g₀.filter fun e => e.2.isEmpty).map fun e => e.1).Sublist
        (g₀.map fun e => e.1) := (List.filter_sublist g₀).map _
    exact hKnd.sublist hsub
  · intro x hx ds hds
    obtain ⟨e, hef, hex⟩ := List.mem_map.mp hx
    have he := (List.mem_filter.mp hef).1
    have hemp : e.2 = [] := List.isEmpty_iff.mp (List.mem_filter.mp hef).2
    have hpair : (x, e.2) ∈ g₀ := by
      rw [← hex]
      exact he
    obtain rfl : ds = e.2 := assoc_functional g₀ hKnd x ds e.2 hds hpair
    rw [hfilt, hemp]
  · intro P ds hds _ hPq
    rw [hfilt]
    intro hnil
    apply hPq
    refine List.mem_map.mpr ⟨(P, ds), ?_, rfl⟩
    refine List.mem_filter.mpr ⟨hds, ?_⟩
    rw [List.isEmpty_iff]
    exact hnil
  · intro P hP
    cases hP

/-- With enough fuel, Kahn's loop run from an invariant state returns a
complete topologically ordered list of the keys. -/
theorem kahnLoop_spec (g₀ : List (String × List String))
    (hKnd : (g₀.map fun e => e.1).Nodup)
    (hDnd : ∀ e ∈ g₀, (e : String × List String).2.Nodup)
    (hClosed : ∀ e ∈ g₀, ∀ q ∈ (e : String × List String).2,
      q ∈ (g₀.map fun e => e.1))
    (hAcy : KAcyclic g₀) :
    ∀ (fuel : Nat) (cur : List (String × List String)) (queue sorted : List String),
      KInv g₀ cur queue sorted →
      g₀.length < fuel + sorted.length →
      ∃ r, kahnLoop fuel cur queue sorted = some r
        ∧ r.length = g₀.length
        ∧ (∀ x ∈ (g₀.map fun e => e.1), x ∈ r)
        ∧ ∀ P ∈ r, ∀ ds, (P, ds) ∈ g₀ → ∀ Q ∈ ds, Before r Q P := by
  intro fuel
  induction fuel with
  | zero =>
    intro cur queue sorted hinv hfuel
    exfalso
    have hndS : sorted.Nodup := (List.nodup_append.mp hinv.nd).1
    have hle := (List.subperm_of_subset hndS
      (fun x hx => hinv.s_keys x hx)).length_le
    rw [List.length_map] at hle
    omega
  | succ n ih =>
    intro cur queue sorted hinv hfuel
    cases queue with
    | nil =>
      have hndS : sorted.Nodup := by
        have h := hinv.nd
        rw [List.append_nil] at h
        exact h
      have hcomp : ∀ x ∈ (g₀.map fun e => e.1), x ∈ sorted := by
        by_contra hne
        push_neg at hne
        obtain ⟨x₀, hx₀, hx₀s⟩ := hne
        have hRne : ((g₀.map fun e => e.1).filter
            fun k => !(sorted.contains k)) ≠ [] := by
          intro h
          have hx₀R : x₀ ∈ (g₀.map fun e => e.1).filter
              fun k => !(sorted.contains k) :=
            List.mem_filter.mpr ⟨hx₀, by simpa using hx₀s⟩
          rw [h] at hx₀R
          cases hx₀R
        have hRsub : ∀ x ∈ ((g₀.map fun e => e.1).filter
            fun k => !(sorted.contains k)), x ∈ (g₀.map fun e => e.1) :=
          fun x hx => (List.mem_filter.mp hx).1
        obtain ⟨nn, hnR, hnprop⟩ := hAcy _ hRne hRsub
        have hnS : nn ∉ sorted := by
          have h := (List.mem_filter.mp hnR).2
          simpa using h
        obtain ⟨e, he, he1⟩ := List.mem_map.mp ((List.mem_filter.mp hnR).1)
        have hpair : (nn, e.2) ∈ g₀ := by
          have h : (e.1, e.2) ∈ g₀ := he
          rw [he1] at h
          exact h
        have hpend := hinv.pending nn e.2 hpair hnS (List.not_mem_nil nn)
        obtain ⟨y, hy, hyb⟩ := exists_of_filter_ne_nil _ _ hpend
        have hyS : y ∉ sorted := by simpa using hyb
        have hyKeys : y ∈ (g₀.map fun e => e.1) := hClosed (nn, e.2) hpair y hy
        have hyR : y ∈ (g₀.map fun e => e.1).filter
            fun k => !(sorted.contains k) :=
          List.mem_filter.mpr ⟨hyKeys, by simpa using hyS⟩
        exact hnprop e.2 hpair y hy hyR
      have hlen : sorted.length = g₀.length := by
        have h1 := (List.subperm_of_subset hndS
          (fun x hx => hinv.s_keys x hx)).length_le
        have h2 := (List.subperm_of_subset hKnd
          (fun x hx => hcomp x hx)).length_le
        rw [List.length_map] at h1 h2
        omega
      exact ⟨sorted, rfl, hlen, hcomp, hinv.ordered⟩
    | cons q qs =>
      have hinv' := kInv_step g₀ cur q qs sorted hDnd hKnd hinv
      have hfuel' : g₀.length < n + (sorted ++ [q]).length := by
        rw [List.length_append]
        simp only [List.length_singleton]
        omega
      obtain ⟨r, hr, hlen, hcmp, hord⟩ := ih _ _ _ hinv' hfuel'
      refine ⟨r, ?_, hlen, hcmp, hord⟩
      simp only [kahnLoop]
      exact hr

/-- Every nonempty list has an element of minimal rank. -/
theorem exists_min_rank (R : List String) (hne : R ≠ []) (rank : String → Nat) :
    ∃ n ∈ R, ∀ m ∈ R, rank n ≤ rank m := by
  induction R with
  | nil => exact absurd rfl hne
  | cons x xs ih =>
    cases xs with
    | nil =>
      refine ⟨x, List.mem_cons_self _ _, ?_⟩
      intro m hm
      rw [List.mem_singleton.mp hm]
    | cons y ys =>
      obtain ⟨n', hn', hmin'⟩ := ih (by intro h; cases h)
      by_cases hc : rank x ≤ rank n'
      · refine ⟨x, List.mem_cons_self _ _, ?_⟩
        intro m hm
        rcases List.mem_cons.mp hm with rfl | hm'
        · exact Nat.le_refl _
        · exact Nat.le_trans hc (hmin' m hm')
      · refine ⟨n', List.mem_cons_of_mem _ hn', ?_⟩
        intro m hm
        rcases List.mem_cons.mp hm with rfl | hm'
        · omega
        · exact hmin' m hm'

/-- A ranking that strictly decreases along every edge certifies the
subset-style acyclicity used by the Kahn invariant. -/
theorem kAcyclic_of_rank (g : List (String × List String)) (rank : String → Nat)
    (h : ∀ e ∈ g, ∀ q ∈ (e : String × List String).2, rank q < rank e.1) :
    KAcyclic g := by
  intro R hne hsub
  obtain ⟨n, hnR, hmin⟩ := exists_min_rank R hne rank
  refine ⟨n, hnR, ?_⟩
  intro ds hds q hq hqR
  have h1 : rank q < rank n := h (n, ds) hds q hq
  have h2 := hmin q hqR
  omega

/-- C9 fixture: library `libp` holds `/p/a.vhd` whose only reference is the
explicitly qualified unit `libq.ub`, defined by `/q/b.vhd` in library `libq`,
which references nothing. -/
def envLibs : Env :=
  ⟨[("/p/a.vhd", ⟨[(some "libq", "ub")], [], []⟩), ("/q/b.vhd", ⟨[], [], []⟩)],
   ["/p/a.vhd", "/q/b.vhd"]⟩

/-- Unit index for the C9 fixture. -/
def umLibs : UnitMap := [(("libq", "ub"), ["/q/b.vhd"])]

/-- File-to-library classification for the C9 fixture. -/
def fmLibs : List (String × String) := [("/p/a.vhd", "libp"), ("/q/b.vhd", "libq")]

/-- Sources grouped by library for the C9 fixture. -/
def slibLibs : List (String × List String) :=
  [("libp", ["/p/a.vhd"]), ("libq", ["/q/b.vhd"])]

/-- The library graph the C9 fixture builds: `libp` depends on `libq`. -/
def gLibs : List (String × List String) := [("libp", ["libq"]), ("libq", [])]

/-- C9: the library graph built by `generate_python_dict` never contains a
self-edge (the insertion is guarded by `source_lib != dep_lib`), and on an
acyclic library graph Kahn's algorithm emits every library exactly once in
an order where each library's dependencies precede it — in particular when
the files of library P reference units of library Q, Q precedes P. -/
theorem c9_library_order_respects_edges
    (env : Env) (unit_map : UnitMap) (default_lib : String)
    (file_to_lib_map : List (String × String)) (slib : List (String × List String))
    (g : List (String × List String))
    (hbuild : build_lib_graph env unit_map default_lib file_to_lib_map slib = some g)
    (hKnd : (g.map fun e => e.1).Nodup)
    (hDnd : ∀ e ∈ g, (e : String × List String).2.Nodup)
    (hClosed : ∀ e ∈ g, ∀ q ∈ (e : String × List String).2,
      q ∈ (g.map fun e => e.1))
    (hAcy : KAcyclic g) :
    SelfFree g ∧
    ∃ r, sort_libraries g (g.length + 1) = some r
      ∧ ∀ P ds, (P, ds) ∈ g → ∀ Q ∈ ds, Before r Q P := by
  have hself : SelfFree g := by
    have hinit : SelfFree (slib.map fun e => (e.1, ([] : List String))) := by
      intro e he
      obtain ⟨e₀, -, rfl⟩ := List.mem_map.mp he
      exact List.not_mem_nil _
    exact selfFree_build env unit_map default_lib file_to_lib_map
      (slib.flatMap fun e => e.2) _ g hinit hbuild
  obtain ⟨r, hr, hlen, hcmp, hordAll⟩ :=
    kahnLoop_spec g hKnd hDnd hClosed hAcy (g.length + 1) g
      ((g.filter fun e => e.2.isEmpty).map fun e => e.1) [] (kInv_init g hKnd)
      (by simp)
  have hsl : sort_libraries g (g.length + 1) = some r := by
    simp only [sort_libraries, hr]
    simp [hlen]
  refine ⟨hself, r, hsl, ?_⟩
  intro P ds hds Q hQ
  have hPr : P ∈ r := hcmp P (List.mem_map.mpr ⟨(P, ds), hds, rfl⟩)
  exact hordAll P hPr ds hds Q hQ

/-- The C9 theorem at the concrete two-library fixture: the built graph is
self-edge free and `libq` is ordered before `libp`. -/
theorem c9_library_order_respects_edges_witness :
    SelfFree gLibs ∧
    ∃ r, sort_libraries gLibs (gLibs.length + 1) = some r
      ∧ ∀ P ds, (P, ds) ∈ gLibs → ∀ Q ∈ ds, Before r Q P :=
  c9_library_order_respects_edges envLibs umLibs "work" fmLibs slibLibs gLibs
    (by decide) (by decide) (by decide) (by decide)
    (kAcyclic_of_rank gLibs (fun s => if s = "libq" then 0 else 1) (by decide))

end Teros
